import Mathlib

/-!
Verification development for the AtlasAI-CLI task workflow engine
(`atlasai/task/task_parser.py` and `atlasai/task/task_executor.py`).

The Python sources are shallowly embedded: pure string processing becomes
functions over `List Char`, the task graph becomes an explicit structure,
and the executor becomes a state-passing function parameterised by oracles
for its two external collaborators (the model-query capability and the
shell command runner, which live outside the task engine and are specified
only as interfaces).
-/

set_option maxRecDepth 20000
set_option linter.unusedVariables false

/-! ## Python string primitives

Helpers mirroring the exact Python `str` operations used by the sources:
`str.strip()`, `str.strip(chars)`, `str.split(sep)`, `str.split(sep, maxsplit)`,
`str.startswith`, and the `in` substring test.
-/

/-- Python whitespace for `str.strip()` / regex `\s` (ASCII range, which is
all the sources ever feed it): space, tab, newline, carriage return,
vertical tab, form feed. -/
def isPySpace (c : Char) : Bool :=
  c = ' ' || c = '\t' || c = '\n' || c = '\r' || c = Char.ofNat 11 || c = Char.ofNat 12

/-- Regex `\w` word characters (ASCII): letters, digits, underscore. -/
def isWordChar (c : Char) : Bool :=
  c.isAlphanum || c = '_'

/-- The single-quote character, `'`. -/
def squoteChar : Char := Char.ofNat 39

/-- Whether `lit` is a literal prefix of `s`. -/
def startsWithLit : List Char → List Char → Bool
  | [], _ => true
  | _ :: _, [] => false
  | a :: as, b :: bs => a = b && startsWithLit as bs

/-- Python substring test `sub in s`. -/
def hasSubstr (sub : List Char) : List Char → Bool
  | [] => startsWithLit sub []
  | c :: t => startsWithLit sub (c :: t) || hasSubstr sub t

/-- Split off everything before the first occurrence of character `sep`;
returns the prefix and, when `sep` occurs, the remainder after it. -/
def splitFirstChar (sep : Char) : List Char → List Char × Option (List Char)
  | [] => ([], none)
  | c :: rest =>
    if c = sep then ([], some rest)
    else
      let (a, b) := splitFirstChar sep rest
      (c :: a, b)

/-- Python `s.split(sep)` with a one-character separator and no maxsplit:
every occurrence splits, empty fields are kept, and splitting the empty
string yields one empty field. -/
def splitAllChar (sep : Char) : List Char → List (List Char)
  | [] => [[]]
  | c :: rest =>
    if c = sep then [] :: splitAllChar sep rest
    else
      match splitAllChar sep rest with
      | [] => [[c]]
      | h :: t => (c :: h) :: t

/-- Python `s.split(sep, maxsplit)` with a one-character separator: at most
`maxsplit` splits are performed, scanning left to right. -/
def pySplitChar (sep : Char) : Nat → List Char → List (List Char)
  | 0, s => [s]
  | Nat.succ m, s =>
    match splitFirstChar sep s with
    | (a, none) => [a]
    | (a, some rest) => a :: pySplitChar sep m rest

/-- Remove trailing characters satisfying `p` (Python `rstrip`). -/
def rstripWith (p : Char → Bool) (s : List Char) : List Char :=
  (s.reverse.dropWhile p).reverse

/-- Python `str.strip()`: remove leading and trailing whitespace. -/
def pyStrip (s : List Char) : List Char :=
  rstripWith isPySpace (s.dropWhile isPySpace)

/-- Python `str.strip(chars)` for the executor's quote stripping
`query.strip('"\'')`: remove leading and trailing characters from the set
consisting of the double quote and the single quote. -/
def pyStripQuotes (s : List Char) : List Char :=
  let isQuote : Char → Bool := fun c => c = '"' || c = squoteChar
  rstripWith isQuote (s.dropWhile isQuote)

/-- Split off everything before the first occurrence of the substring
`marker`; when `marker` occurs, also return the remainder after it. -/
def splitFirstSub (marker : List Char) : List Char → Option (List Char × List Char)
  | [] => if marker.isEmpty then some ([], []) else none
  | c :: rest =>
    if startsWithLit marker (c :: rest) then some ([], (c :: rest).drop marker.length)
    else (splitFirstSub marker rest).map (fun p => (c :: p.1, p.2))

/-- Lines of a string, Python `s.split('\n')`. -/
def splitLines (s : List Char) : List (List Char) :=
  splitAllChar '\n' s

/-- Join lines with newline separators (used to build inputs in statements). -/
def joinLines : List (List Char) → List Char
  | [] => []
  | [l] => l
  | l :: rest => l ++ '\n' :: joinLines rest

/-- Python `str.startswith` on Lean strings. -/
def pyStartsWith (s pre : String) : Bool :=
  startsWithLit pre.data s.data

/-- Python `sub in s` on Lean strings. -/
def strContains (s sub : String) : Bool :=
  hasSubstr sub.data s.data

/-- Split on every character satisfying `p`, keeping empty fields. -/
def splitOnPred (p : Char → Bool) : List Char → List (List Char)
  | [] => [[]]
  | c :: rest =>
    if p c then [] :: splitOnPred p rest
    else
      match splitOnPred p rest with
      | [] => [[c]]
      | h :: t => (c :: h) :: t

/-- Tokens of a string split on runs of whitespace with empties discarded
(Python `str.split()` with no arguments). This is the reading of
"whitespace-separated token" used by the specification's wording for the
AI-command validity check; it is stated here so it can be compared with
what the code actually does, which is `split(' ', 2)`. -/
def claimWhitespaceTokens (s : String) : List String :=
  ((splitOnPred isPySpace s.data).filter (fun l => !l.isEmpty)).map String.mk

/-! ## Workflow parser (atlasai/task/task_parser.py)

The parser uses Python regexes; here each regex is rendered as an explicit
scanner with the same matching semantics (leftmost match, greedy `\s*`/`\w+`,
lazy `.*?`), documented at each definition.
-/

/-- Literal opener of a task marker, `[TASK id="`. -/
def taskMarkerOpen : List Char := "[TASK id=\"".data

/-- Literal middle of a task marker, `" depends="`. -/
def taskMarkerMid : List Char := "\" depends=\"".data

/-- Literal closer of a task marker, `"]`. -/
def taskMarkerClose : List Char := "\"]".data

/-- Triple backtick fence marker. -/
def fenceMark : List Char := "```".data

/-- Heading marker `###`. -/
def headingMark : List Char := "###".data

/-- Attempt to match the task marker `\[TASK id="([^"]+)" depends="([^"]*)"\]`
at the head of `s`. On success returns the id characters, the depends
characters, and the remainder after the closing `]`. The id must be
non-empty (`+`); the depends may be empty (`*`); `[^"]` is rendered as
`takeWhile (· ≠ '"')`, which fails the following literal check exactly when
the regex would fail. -/
def tryTaskMarker (s : List Char) : Option (List Char × List Char × List Char) :=
  if startsWithLit taskMarkerOpen s then
    let r0 := s.drop taskMarkerOpen.length
    let idChars := r0.takeWhile (fun c => c ≠ '"')
    if idChars.isEmpty then none
    else
      let r1 := r0.drop idChars.length
      if startsWithLit taskMarkerMid r1 then
        let r2 := r1.drop taskMarkerMid.length
        let depChars := r2.takeWhile (fun c => c ≠ '"')
        let r3 := r2.drop depChars.length
        if startsWithLit taskMarkerClose r3 then
          some (idChars, depChars, r3.drop taskMarkerClose.length)
        else none
      else none
  else none

/-- Whether the lookahead `\[\s*TASK` matches at the head of `s`. -/
def isTaskLookahead (s : List Char) : Bool :=
  match s with
  | '[' :: r => startsWithLit "TASK".data (r.dropWhile isPySpace)
  | _ => false

/-- Split a task body at the next `\[\s*TASK` lookahead position (the regex
`(.*?)(?=\[\s*TASK|$)` with `re.DOTALL`): returns the body and the
remainder starting at the lookahead, or the whole input when none occurs.
The `$` alternative can also stop just before one trailing newline; since
the caller immediately strips the body, that difference is absorbed. -/
def splitAtTaskStart : List Char → List Char × List Char
  | [] => ([], [])
  | c :: rest =>
    if isTaskLookahead (c :: rest) then ([], c :: rest)
    else
      let p := splitAtTaskStart rest
      (c :: p.1, p.2)

theorem startsWithLit_length {lit s : List Char} (h : startsWithLit lit s = true) :
    lit.length ≤ s.length := by
  induction lit generalizing s with
  | nil => simp
  | cons a as ih =>
    cases s with
    | nil => simp [startsWithLit] at h
    | cons b bs =>
      simp only [startsWithLit, Bool.and_eq_true] at h
      simpa using ih h.2

theorem splitAtTaskStart_snd_length (s : List Char) :
    (splitAtTaskStart s).2.length ≤ s.length := by
  induction s with
  | nil => simp [splitAtTaskStart]
  | cons c rest ih =>
    simp only [splitAtTaskStart]
    split
    · simp
    · simpa using Nat.le_succ_of_le ih

theorem tryTaskMarker_rest_length {s i d r : List Char}
    (h : tryTaskMarker s = some (i, d, r)) : r.length < s.length := by
  have hOpen : taskMarkerOpen.length = 10 := rfl
  simp only [tryTaskMarker] at h
  split at h
  case isTrue hget =>
    have hlen : taskMarkerOpen.length ≤ s.length := startsWithLit_length hget
    split at h
    · exact absurd h (by simp)
    · split at h
      case isTrue =>
        split at h
        case isTrue =>
          simp only [Option.some.injEq, Prod.mk.injEq] at h
          obtain ⟨-, -, hr⟩ := h
          subst hr
          simp only [List.length_drop]
          omega
        case isFalse => exact absurd h (by simp)
      case isFalse => exact absurd h (by simp)
  case isFalse => exact absurd h (by simp)

/-- Fuel-driven body of the task scanner. Each step consumes one unit of
fuel while the input shrinks by at least one character
(`tryTaskMarker_rest_length`, `splitAtTaskStart_snd_length`), so fuel
`s.length + 1` never runs out. -/
def scanTasksGo : Nat → List Char → List (List Char × List Char × List Char)
  | 0, _ => []
  | _ + 1, [] => []
  | fuel + 1, c :: rest =>
    match tryTaskMarker (c :: rest) with
    | some (i, d, r) =>
      (i, d, (splitAtTaskStart r).1) :: scanTasksGo fuel (splitAtTaskStart r).2
    | none => scanTasksGo fuel rest

/-- Scanner for `re.finditer` of the task pattern over the whole document:
try a match at each position; on success resume after the matched span
(the body's lookahead position), on failure advance one character. -/
def scanTasks (s : List Char) : List (List Char × List Char × List Char) :=
  scanTasksGo (s.length + 1) s

/-- Attempt to match `###\s*.*?\n` at the head of `s` (for
`re.sub(r'###\s*.*?\n', '', task_content, 1)`); on success returns the
remainder after the matched span. The greedy `\s*` takes the maximal
whitespace run; the lazy `.*?` (which cannot cross newlines) then reaches
the next `'\n'`. If no newline follows the run, the engine backtracks
`\s*` to the last newline inside the run; with no newline at all the
match fails at this position. -/
def tryHeadingMatch (s : List Char) : Option (List Char) :=
  if startsWithLit headingMark s then
    let after := s.drop headingMark.length
    let w := after.takeWhile isPySpace
    let afterW := after.drop w.length
    match splitFirstChar '\n' afterW with
    | (_, some rest) => some rest
    | (_, none) =>
      if w.contains '\n' then
        some ((w.reverse.takeWhile (fun c => c ≠ '\n')).reverse ++ afterW)
      else none
  else none

/-- Remove the first match of `###\s*.*?\n` from `s`, scanning left to
right; characters before the match are kept. -/
def subHeadingOnce : List Char → List Char
  | [] => []
  | c :: rest =>
    match tryHeadingMatch (c :: rest) with
    | some tail => tail
    | none => c :: subHeadingOnce rest

theorem splitFirstSub_snd_length {marker s a b : List Char} (hm : marker ≠ [])
    (h : splitFirstSub marker s = some (a, b)) : b.length < s.length := by
  induction s generalizing a with
  | nil =>
    simp only [splitFirstSub] at h
    split at h
    · simp_all
    · exact absurd h (by simp)
  | cons c rest ih =>
    simp only [splitFirstSub] at h
    split at h
    case isTrue hs =>
      simp only [Option.some.injEq, Prod.mk.injEq] at h
      obtain ⟨-, hb⟩ := h
      subst hb
      have : 1 ≤ marker.length := by
        cases marker with
        | nil => exact absurd rfl hm
        | cons x xs => simp
      simp only [List.length_drop, List.length_cons]
      omega
    case isFalse =>
      cases hrec : splitFirstSub marker rest with
      | none => rw [hrec] at h; exact absurd h (by simp)
      | some p =>
        obtain ⟨p1, p2⟩ := p
        rw [hrec] at h
        simp only [Option.map_some', Option.some.injEq, Prod.mk.injEq] at h
        obtain ⟨-, hb⟩ := h
        subst hb
        have := ih (a := p1) hrec
        simpa using Nat.lt_succ_of_lt this

/-- Attempt to match one fenced block ```` ```(?:\w+)?\s*(.*?)``` ```` at the
head of `s`: the opening fence, a greedy optional word-character language
tag, greedy whitespace, then the lazy body up to the nearest closing
fence. Returns the captured group and the remainder after the closing
fence. Backtick is neither a word character nor whitespace, so no
backtracking of the greedy parts can move the closing fence. -/
def tryFence (s : List Char) : Option (List Char × List Char) :=
  if startsWithLit fenceMark s then
    let r0 := s.drop fenceMark.length
    let r1 := r0.drop (r0.takeWhile isWordChar).length
    let r2 := r1.drop (r1.takeWhile isPySpace).length
    splitFirstSub fenceMark r2
  else none

theorem tryFence_rest_length {s g r : List Char}
    (h : tryFence s = some (g, r)) : r.length < s.length := by
  unfold tryFence at h
  split at h
  case isTrue =>
    have hlt := splitFirstSub_snd_length (by simp [fenceMark]) h
    simp only [List.length_drop] at hlt
    omega
  case isFalse => exact absurd h (by simp)

/-- Fuel-driven body of the fence scanner; fuel `s.length + 1` never runs
out because each step shrinks the input (`tryFence_rest_length`). -/
def scanFencesGo : Nat → List Char → List (List Char)
  | 0, _ => []
  | _ + 1, [] => []
  | fuel + 1, c :: rest =>
    match tryFence (c :: rest) with
    | some (g, r) => g :: scanFencesGo fuel r
    | none => scanFencesGo fuel rest

/-- Scanner for `re.finditer` of the fenced-block pattern: collect the
captured groups of all matches, resuming after each closing fence and
advancing one character on failure. -/
def scanFences (s : List Char) : List (List Char) :=
  scanFencesGo (s.length + 1) s

/-- Title extraction (`re.search(r'###\s*(.*?)$', task_content, re.MULTILINE)`
followed by `.strip()`, with the `"Task " + task_id` fallback when there is
no match): after the first `###`, greedy `\s*` may cross newlines, and the
lazy capture runs to the end of the line. -/
def taskTitleL (task_id tc : List Char) : List Char :=
  match splitFirstSub headingMark tc with
  | none => "Task ".data ++ task_id
  | some (_, after) =>
    let afterW := after.dropWhile isPySpace
    pyStrip (afterW.takeWhile (fun c => c ≠ '\n'))

/-- Description extraction: remove the first heading line
(`re.sub(r'###\s*.*?\n', '', task_content, 1)`), keep everything before the
first fence (`re.split(r'```', desc_text, 1)[0]`), and strip. -/
def taskDescriptionL (tc : List Char) : List Char :=
  let descText := subHeadingOnce tc
  let beforeFence :=
    match splitFirstSub fenceMark descText with
    | some p => p.1
    | none => descText
  pyStrip beforeFence

/-- Per-line command post-processing: strip each line and drop blanks
(`[cmd.strip() for cmd in cmd_lines if cmd.strip()]`). -/
def procLines (ls : List (List Char)) : List (List Char) :=
  (ls.map pyStrip).filter (fun l => !l.isEmpty)

/-- Commands contributed by one captured fence group:
`group(1).strip().split('\n')` then per-line processing. -/
def fenceCommands (g : List Char) : List (List Char) :=
  procLines (splitLines (pyStrip g))

/-- All commands of a task body, in document order across fenced blocks. -/
def taskCommandsL (tc : List Char) : List (List Char) :=
  (scanFences tc).flatMap fenceCommands

/-- Dependency tokens: split on commas, strip, drop empties
(`[dep.strip() for dep in depends_str.split(',') if dep.strip()]`). -/
def parseDepends (d : List Char) : List (List Char) :=
  ((splitAllChar ',' d).map pyStrip).filter (fun l => !l.isEmpty)

/-! ## Task graph data model (atlasai/task/task_parser.py)

`TaskDefinition.__init__` stores the given fields and sets
`is_completed = False`. `TaskGraph` holds a dict of tasks plus the
`networkx.DiGraph`; the digraph is modelled by its node and edge sets,
kept as duplicate-free lists in insertion order (`add_node`/`add_edge`
ignore duplicates). Workflow metadata is parsed only into
`task_graph.metadata`, which nothing in the engine reads, so it is not
modelled. -/

structure TaskDefinition where
  id : String
  title : String
  description : String
  depends_on : List String
  commands : List String
  is_completed : Bool := false
deriving DecidableEq

structure TaskGraph where
  tasks : List (String × TaskDefinition) := []
  nodes : List String := []
  edges : List (String × String) := []
deriving DecidableEq

def TaskGraph.empty : TaskGraph := {}

/-- Python dict insertion: overwrite in place when the key exists,
append otherwise. -/
def dictInsert (k : String) (v : TaskDefinition) :
    List (String × TaskDefinition) → List (String × TaskDefinition)
  | [] => [(k, v)]
  | (k', v') :: rest => if k' = k then (k, v) :: rest else (k', v') :: dictInsert k v rest

/-- Python dict lookup (`self.tasks.get(key)` / `self.tasks[key]`). -/
def dictGet : List (String × TaskDefinition) → String → Option TaskDefinition
  | [], _ => none
  | (k, v) :: rest, k' => if k = k' then some v else dictGet rest k'

/-- `networkx` `add_node`: no effect on a node already present. -/
def addNodeNX (ns : List String) (n : String) : List String :=
  if n ∈ ns then ns else ns ++ [n]

/-- `networkx` `add_edge(a, b)`: creates missing endpoint nodes implicitly
and ignores a duplicate edge. -/
def addEdgeNX (g : TaskGraph) (a b : String) : TaskGraph :=
  { g with
    nodes := addNodeNX (addNodeNX g.nodes a) b
    edges := if (a, b) ∈ g.edges then g.edges else g.edges ++ [(a, b)] }

/-- `TaskGraph.add_task`: register the task, add its node, then add one
edge `dep -> task.id` for every non-empty dependency token. -/
def TaskGraph.add_task (g : TaskGraph) (task : TaskDefinition) : TaskGraph :=
  let g1 : TaskGraph :=
    { g with
      tasks := dictInsert task.id task g.tasks
      nodes := addNodeNX g.nodes task.id }
  task.depends_on.foldl
    (fun acc dep => if dep ≠ "" then addEdgeNX acc dep task.id else acc) g1

/-- `TaskGraph.get_next_tasks`: ids of tasks not yet completed whose every
dependency that is non-empty and present in the task mapping is completed
(`all(self.tasks.get(dep_id).is_completed for dep_id in task.depends_on
if dep_id and dep_id in self.tasks)`). -/
def TaskGraph.get_next_tasks (g : TaskGraph) : List String :=
  (g.tasks.filter (fun p =>
    !p.2.is_completed &&
    p.2.depends_on.all (fun dep =>
      if dep = "" then true
      else
        match dictGet g.tasks dep with
        | none => true
        | some t => t.is_completed))).map Prod.fst

/-- `TaskGraph.mark_as_completed`: set the flag when the id is present. -/
def TaskGraph.mark_as_completed (g : TaskGraph) (task_id : String) : TaskGraph :=
  { g with
    tasks := g.tasks.map (fun p =>
      if p.1 = task_id then (p.1, { p.2 with is_completed := true }) else p) }

/-- `TaskGraph.all_tasks_completed`. -/
def TaskGraph.all_tasks_completed (g : TaskGraph) : Bool :=
  g.tasks.all (fun p => p.2.is_completed)

/-- Membership of a directed edge. -/
def edgeMemB (edges : List (String × String)) (a b : String) : Bool :=
  decide ((a, b) ∈ edges)

/-- Consecutive pairs of the list are all edges. -/
def chainB (edges : List (String × String)) : List String → Bool
  | [] => true
  | [_] => true
  | a :: b :: rest => edgeMemB edges a b && chainB edges (b :: rest)

/-- The list is a closed walk through `edges`: consecutive pairs are edges
and the last element has an edge back to the first. `simple_cycles` lists
only node-disjoint such walks; disjointness is imposed by the enumeration
below, which only produces duplicate-free candidate lists. -/
def isCycleBool (edges : List (String × String)) : List String → Bool
  | [] => false
  | a :: rest => chainB edges (a :: rest) && edgeMemB edges (rest.getLastD a) a

/-- Keep the first occurrence of every element (duplicate removal over
node lists; `add_edge`/`add_node` already keep the node list
duplicate-free, this guards arbitrary graph values). -/
def dedupL : List String → List String
  | [] => []
  | a :: rest => a :: (dedupL rest).filter (fun b => !(b = a))

/-- All subsequences of a list. -/
def sublistsOf : List String → List (List String)
  | [] => [[]]
  | a :: rest => sublistsOf rest ++ (sublistsOf rest).map (fun l => a :: l)

/-- All ways of inserting `a` into one position of a list. -/
def insertEverywhere (a : String) : List String → List (List String)
  | [] => [[a]]
  | b :: rest => (a :: b :: rest) :: (insertEverywhere a rest).map (fun l => b :: l)

/-- All permutations of a list. -/
def permsOf : List String → List (List String)
  | [] => [[]]
  | a :: rest => (permsOf rest).flatMap (insertEverywhere a)

/-- Model of `networkx.simple_cycles`: every duplicate-free arrangement of
graph nodes (permutation of a subsequence of the deduplicated node list)
that forms a cycle. Exponential, but used only for validation
semantics. -/
def simpleCyclesOf (g : TaskGraph) : List (List String) :=
  ((sublistsOf (dedupL g.nodes)).map permsOf).flatten.filter (isCycleBool g.edges)

/-- One round of Kahn's algorithm driven topological sort used to model
`networkx.topological_sort` (this ordering is display-only in the
executor and no claim depends on its exact value). -/
def topoSortGo (edges : List (String × String)) : Nat → List String → List String
  | 0, _ => []
  | Nat.succ n, rem =>
    let ready := rem.filter (fun v => edges.all (fun e => !(e.2 = v && rem.contains e.1)))
    match ready with
    | [] => []
    | _ => ready ++ topoSortGo edges n (rem.filter (fun v => !(ready.contains v)))

def topoSortNX (g : TaskGraph) : List String :=
  topoSortGo g.edges (dedupL g.nodes).length (dedupL g.nodes)

/-- Exceptions that can escape to the `except` handler of
`execute_tasks`: the cycle `ValueError` from `get_execution_order`
(carrying the cycles it names), an exception raised by the query
capability, and a `KeyError` from `self.task_graph.tasks[task_id]`. -/
inductive RunExn where
  | cycles (cs : List (List String))
  | queryExn (msg : String)
  | keyError (id : String)
deriving DecidableEq

/-- `TaskGraph.get_execution_order`: raise a `ValueError` naming the
cycles when `simple_cycles` finds any, otherwise return a topological
order. -/
def TaskGraph.get_execution_order (g : TaskGraph) : Except RunExn (List String) :=
  let cs := simpleCyclesOf g
  if cs.isEmpty then Except.ok (topoSortNX g) else Except.error (RunExn.cycles cs)

/-- Construction invariant of graphs built through `add_task`: every edge
endpoint is a node of the digraph and every edge target is a registered
task id. -/
def edgeInvB (g : TaskGraph) : Bool :=
  g.edges.all (fun e =>
    g.nodes.contains e.1 && g.nodes.contains e.2 && (dictGet g.tasks e.2).isSome)

/-- Build one `TaskDefinition` from a task-pattern match
(`parse_task_file` lines 111-140): strip the body, extract title,
description, dependencies, and commands. -/
def buildTask (idC depC body : List Char) : TaskDefinition :=
  let tc := pyStrip body
  { id := String.mk idC
    title := String.mk (taskTitleL idC tc)
    description := String.mk (taskDescriptionL tc)
    depends_on := (parseDepends depC).map String.mk
    commands := (taskCommandsL tc).map String.mk
    is_completed := false }

/-- `parse_task_file` on document content: scan all task-pattern matches
and fold them into a graph with `add_task`. The file-existence check and
the metadata extraction (read by nothing in the engine) are the only
parts of the Python function not reflected here. -/
def parse_task_file (content : String) : TaskGraph :=
  (scanTasks content.data).foldl
    (fun g t => g.add_task (buildTask t.1 t.2.1 t.2.2)) TaskGraph.empty

/-! ## Template generator (`generate_task_template`)

A literal transcription of the f-string assembly, with the
`datetime.now()` date abstracted as the `today` argument. -/

/-- The single-quote character as a string (source text contains it inside
English words). -/
def sqChar : String := String.mk [squoteChar]

def templateHeader (today : String) : String :=
  "# AtlasAI Task: My Project Workflow\n\n## Metadata\n- author: Your Name\n- date: "
    ++ today ++
    "\n- priority: high\n- allow_file_operations: true\n\n## Description\nThis is a template task workflow. Edit this description to explain what this workflow will accomplish.\nReplace the task definitions below with your actual tasks.\n\n## Tasks\n"

def taskBlock (i : Nat) : String :=
  let depends := if i > 1 then "task" ++ toString (i - 1) else ""
  "\n" ++ toString i ++ ". [TASK id=\"task" ++ toString i ++ "\" depends=\"" ++ depends
    ++ "\"]\n   ### Task " ++ toString i ++ " Title\n   Description of task "
    ++ toString i ++ ". Explain what this task does and why it" ++ sqChar
    ++ "s important.\n   \n   ```bash\n   # Replace with actual commands for this task\n   echo \"Executing task "
    ++ toString i ++ "\"\n   ```\n\n"

/-- The final task block: note that the `depends` list joins
`task1 .. task(num_tasks - 1)` — `range(1, num_tasks)` in the source —
even though the block's own text says it depends on all previous tasks. -/
def finalBlock (num_tasks : Nat) : String :=
  let dependencies :=
    String.intercalate ", " ((List.range' 1 (num_tasks - 1)).map (fun i => "task" ++ toString i))
  "\n" ++ toString (num_tasks + 1) ++ ". [TASK id=\"final\" depends=\"" ++ dependencies
    ++ "\"]\n   ### Final Task\n   This task depends on all previous tasks and runs only when they are complete.\n   \n   ```bash\n   # Replace with your final commands\n   echo \"All tasks completed, running final task\"\n   ```\n"

def templateNotes : String :=
  "\n## Notes\n- Each task must have a unique ID\n- The \"depends\" attribute lists the IDs of tasks that must complete before this task\n- Multiple dependencies should be comma-separated\n- Commands are executed in the order they appear\n- Use atlasai commands for AI-powered operations\n"

def generate_task_template (num_tasks : Nat) (today : String) : String :=
  templateHeader today
    ++ String.join ((List.range' 1 num_tasks).map taskBlock)
    ++ (if num_tasks > 2 then finalBlock num_tasks else "")
    ++ templateNotes

/-! ## Workflow executor (atlasai/task/task_executor.py)

The executor's two external collaborators are modelled as oracles, exactly
as the specification describes their interfaces (spec section 6):
`queryCapability.ask(text, onChunk?) -> text` becomes a function from the
query to the streamed chunks plus an optional raised exception, and
`commandRunner.run(commands) -> text` becomes a function from the command
to either its combined output text or a raised exception. Console
rendering is modelled as an event trace; the user-supplied progress
callback's invocations are traced as `cbCall` events marked with the call
site that made them. -/

/-- Which dispatch path invoked the user callback. -/
inductive Origin where
  | ai
  | shell
deriving DecidableEq

/-- Observable steps of one run: dispatches to the two external
capabilities, callback invocations, and the operator-facing notices the
claims talk about. -/
inductive Event where
  | aiDispatch (query : String)
  | shellDispatch (command : String)
  | invalidAiNotice (command : String)
  | cbCall (origin : Origin) (content : String)
  | restrictedNotice (result : String)
  | overrideConfirmAsk
  | overrideNotImplemented
  | taskCompleted (id : String)
  | runError (e : RunExn)
deriving DecidableEq

/-- Oracles for the external collaborators. `processQuery` returns the
chunks it streams to the per-call callback before returning, and an
optional exception raised after those chunks; `runCommand` returns the
combined output text or raises; `confirmAsk` is the operator's answer to
the interactive override prompt. -/
structure Oracles where
  processQuery : String → List String × Option String
  runCommand : String → Except String String
  confirmAsk : Bool

/-- Mutable process state visible to the executor: the working directory
(`os.getcwd()` / `os.chdir`). -/
structure SysState where
  cwd : String
deriving DecidableEq

/-- The query part of `_execute_atlasai_command`: `command.split(' ', 2)`,
the `len(parts) < 3 or parts[1] != '--query'` validity test, and
`parts[2].strip('"\'')`. Returns `none` for an invalid command. -/
def atlasaiQuery (command : String) : Option String :=
  let parts := pySplitChar ' ' 2 command.data
  if parts.length < 3 || !(parts.getD 1 [] = "--query".data) then none
  else some (String.mk (pyStripQuotes (parts.getD 2 [])))

/-- `TaskExecutor._execute_atlasai_command`: reject malformed commands
with a notice; otherwise forward the query to the agent, streaming each
chunk through the callback (when one was supplied), and let any exception
raised by the query capability propagate (first component: events in
order; second: the escaping exception, if any). -/
def executeAtlasaiCommand (ox : Oracles) (hasCb : Bool) (command : String) :
    List Event × Option RunExn :=
  match atlasaiQuery command with
  | none => ([Event.invalidAiNotice command], none)
  | some query =>
    let (chunks, exn) := ox.processQuery query
    (Event.aiDispatch query
        :: (if hasCb then chunks.map (fun c => Event.cbCall Origin.ai c) else []),
      exn.map RunExn.queryExn)

/-- `TaskExecutor._execute_system_command`: remember the current
directory, `chdir` to the configured working directory, run the command;
on a result carrying the textual restriction convention show the
restriction notice (and, in verify mode, the interactive override prompt,
whose positive answer only prints that the override is unimplemented),
then hand the result to the callback; on a raised exception hand
`"Error: ..."` to the callback instead; in all cases `finally` restores
the previous directory. Exceptions never escape this function. -/
def executeSystemCommand (ox : Oracles) (verify_commands : Bool) (working_dir : String)
    (hasCb : Bool) (command : String) (st : SysState) : List Event × SysState :=
  let prev_dir := st.cwd
  let st1 : SysState := { st with cwd := working_dir }
  let evs :=
    match ox.runCommand command with
    | Except.ok result =>
      (if strContains result "Error" && strContains result "not allowed" then
        Event.restrictedNotice result
          :: (if verify_commands then
                Event.overrideConfirmAsk
                  :: (if ox.confirmAsk then [Event.overrideNotImplemented] else [])
              else [])
      else [])
      ++ (if hasCb then [Event.cbCall Origin.shell result] else [])
    | Except.error e =>
      if hasCb then [Event.cbCall Origin.shell ("Error: " ++ e)] else []
  (Event.shellDispatch command :: evs, { st1 with cwd := prev_dir })

/-- Dispatch of one command in the task loop
(`if command.startswith("atlasai") ... else ...`). -/
def dispatchCommand (ox : Oracles) (verify_commands : Bool) (working_dir : String)
    (hasCb : Bool) (command : String) (st : SysState) :
    List Event × SysState × Option RunExn :=
  if pyStartsWith command "atlasai" then
    let (evs, exn) := executeAtlasaiCommand ox hasCb command
    (evs, st, exn)
  else
    let (evs, st') := executeSystemCommand ox verify_commands working_dir hasCb command st
    (evs, st', none)

/-- The `for command in task.commands` loop; an exception from a dispatch
aborts the remaining commands and propagates. -/
def runCommands (ox : Oracles) (verify_commands : Bool) (working_dir : String)
    (hasCb : Bool) : List String → SysState → List Event × SysState × Option RunExn
  | [], st => ([], st, none)
  | c :: rest, st =>
    let (evs, st', exn) := dispatchCommand ox verify_commands working_dir hasCb c st
    match exn with
    | some e => (evs, st', some e)
    | none =>
      let (evs2, st2, exn2) := runCommands ox verify_commands working_dir hasCb rest st'
      (evs ++ evs2, st2, exn2)

/-- The `for task_id in next_tasks` loop: look the task up (a missing key
would raise `KeyError`), run its commands, then mark it completed; an
exception aborts the remaining batch and propagates. -/
def runTaskBatch (ox : Oracles) (verify_commands : Bool) (working_dir : String)
    (hasCb : Bool) : List String → TaskGraph → SysState →
      List Event × TaskGraph × SysState × Option RunExn
  | [], g, st => ([], g, st, none)
  | id :: rest, g, st =>
    match dictGet g.tasks id with
    | none => ([], g, st, some (RunExn.keyError id))
    | some task =>
      let (evs, st', exn) := runCommands ox verify_commands working_dir hasCb task.commands st
      match exn with
      | some e => (evs, g, st', some e)
      | none =>
        let g' := g.mark_as_completed id
        let (evs2, g2, st2, exn2) := runTaskBatch ox verify_commands working_dir hasCb rest g' st'
        ((evs ++ [Event.taskCompleted id]) ++ evs2, g2, st2, exn2)

/-- How the `while not all_tasks_completed()` loop ended. -/
inductive LoopOutcome where
  | success
  | stuck
  | exn (e : RunExn)
  | fuelOut
deriving DecidableEq

/-- The scheduling loop, fuelled: every iteration with a non-empty ready
set marks at least one task completed, so fuel `g.tasks.length + 1`
(supplied by `execute_tasks`) cannot run out before the loop exits. -/
def runLoop (ox : Oracles) (verify_commands : Bool) (working_dir : String) (hasCb : Bool) :
    Nat → TaskGraph → SysState → List Event × TaskGraph × SysState × LoopOutcome
  | 0, g, st => ([], g, st, LoopOutcome.fuelOut)
  | fuel + 1, g, st =>
    if g.all_tasks_completed then ([], g, st, LoopOutcome.success)
    else
      let next := g.get_next_tasks
      if next.isEmpty then ([], g, st, LoopOutcome.stuck)
      else
        let (evs, g', st', exn) := runTaskBatch ox verify_commands working_dir hasCb next g st
        match exn with
        | some e => (evs, g', st', LoopOutcome.exn e)
        | none =>
          let (evs2, g2, st2, out) := runLoop ox verify_commands working_dir hasCb fuel g' st'
          (evs ++ evs2, g2, st2, out)

/-- Result of one `execute_tasks` run: the returned boolean, the event
trace, and the final graph and process state. -/
structure RunResult where
  ok : Bool
  events : List Event
  graph : TaskGraph
  state : SysState
deriving DecidableEq

/-- `TaskExecutor.execute_tasks`: return `False` outright on an empty
task mapping; then, inside `try`, compute the execution order (whose cycle
`ValueError` the `except` below catches and reports before returning
`False`) and drive the scheduling loop; a stuck non-empty ready set
returns `False`; an exception escaping a dispatch is caught by the
`except` handler, reported, and turns the run into `False`. -/
def execute_tasks (ox : Oracles) (verify_commands : Bool) (working_dir : String)
    (hasCb : Bool) (g : TaskGraph) (st : SysState) : RunResult :=
  if g.tasks.isEmpty then
    { ok := false, events := [], graph := g, state := st }
  else
    match g.get_execution_order with
    | Except.error e =>
      { ok := false, events := [Event.runError e], graph := g, state := st }
    | Except.ok _order =>
      let (evs, g', st', out) :=
        runLoop ox verify_commands working_dir hasCb (g.tasks.length + 1) g st
      match out with
      | LoopOutcome.success => { ok := true, events := evs, graph := g', state := st' }
      | LoopOutcome.stuck => { ok := false, events := evs, graph := g', state := st' }
      | LoopOutcome.exn e =>
        { ok := false, events := evs ++ [Event.runError e], graph := g', state := st' }
      | LoopOutcome.fuelOut => { ok := false, events := evs, graph := g', state := st' }

/-! ## Concrete fixtures used by witnesses and counterexamples -/

/-- Oracle whose runner returns `"OUT"` and whose agent streams nothing. -/
def oxBasic : Oracles :=
  { processQuery := fun _ => ([], none)
    runCommand := fun _ => Except.ok "OUT"
    confirmAsk := false }

/-- Oracle whose agent raises `"boom"` on every query. -/
def oxQueryBoom : Oracles :=
  { processQuery := fun _ => ([], some "boom")
    runCommand := fun _ => Except.ok "r"
    confirmAsk := false }

/-- Oracle whose agent streams two chunks and returns normally. -/
def oxTwoChunks : Oracles :=
  { processQuery := fun _ => (["chunk1", "chunk2"], none)
    runCommand := fun _ => Except.ok "OUT"
    confirmAsk := false }

/-- One task with a single shell command. -/
def gShellOnly : TaskGraph :=
  TaskGraph.empty.add_task
    { id := "t1", title := "T", description := "D", depends_on := []
      commands := ["echo hi"] }

/-- One task whose AI-directed command precedes a shell command. -/
def gAiThenShell : TaskGraph :=
  TaskGraph.empty.add_task
    { id := "t1", title := "T", description := "D", depends_on := []
      commands := ["atlasai --query go", "echo x"] }

/-- Two chained tasks (the spec's scenario: `t1` then `t2`). -/
def gChain2 : TaskGraph :=
  (TaskGraph.empty.add_task
    { id := "t1", title := "", description := "", depends_on := []
      commands := ["echo a"] }).add_task
    { id := "t2", title := "", description := "", depends_on := ["t1"]
      commands := ["echo b"] }

/-- Two mutually dependent tasks (the spec's cycle example `A ↔ B`). -/
def gCycAB : TaskGraph :=
  (TaskGraph.empty.add_task
    { id := "A", title := "", description := "", depends_on := ["B"]
      commands := ["x"] }).add_task
    { id := "B", title := "", description := "", depends_on := ["A"]
      commands := ["y"] }

/-! ## Claim theorems -/

/-- C9: for the empty task graph, `execute_tasks` returns `False` before
creating the agent or dispatching anything (the `if not self.task_graph.tasks`
guard), even though `all_tasks_completed` is vacuously true. -/
theorem c9_empty_graph_rejected (ox : Oracles) (vc : Bool) (wd : String)
    (hasCb : Bool) (st : SysState) :
    execute_tasks ox vc wd hasCb TaskGraph.empty st
        = { ok := false, events := [], graph := TaskGraph.empty, state := st }
      ∧ TaskGraph.empty.all_tasks_completed = true :=
  ⟨rfl, rfl⟩

/-- C6: `_execute_system_command` restores the process working directory
on every exit path — normal result, restricted result, and raised
exception are all covered because the oracle's outcome is universally
quantified — exactly as the `finally: os.chdir(prev_dir)` guarantees. -/
theorem c6_workdir_restored (ox : Oracles) (vc : Bool) (wd : String)
    (hasCb : Bool) (cmd : String) (st : SysState) :
    ((executeSystemCommand ox vc wd hasCb cmd st).2).cwd = st.cwd := by
  unfold executeSystemCommand
  cases ox.runCommand cmd <;> rfl

/-- C7 (evidence of the code bug): parsing the template generated for
`N = 3` yields the expected four tasks with the documented chain
`task2 -> task1`, `task3 -> task2`, but the `final` task's dependency
list is `["task1", "task2"]` — `task3` is missing, because the source
joins `range(1, num_tasks)` — although the generated block's own text
says the final task "depends on all previous tasks and runs only when
they are complete". -/
theorem c7_template_final_missing_last_dep :
    ((parse_task_file (generate_task_template 3 "2025-01-01")).tasks.map Prod.fst
        = ["task1", "task2", "task3", "final"])
      ∧ ((parse_task_file (generate_task_template 3 "2025-01-01")).tasks.map
            (fun p => (p.1, p.2.depends_on))
        = [("task1", []), ("task2", ["task1"]), ("task3", ["task2"]),
           ("final", ["task1", "task2"])])
      ∧ ((dictGet (parse_task_file (generate_task_template 3 "2025-01-01")).tasks
            "final").map (fun t => t.depends_on.contains "task3")
        = some false) := by
  decide

/-- C1 counterexample: in a run with a supplied callback containing one
shell command, the callback receives the shell command's output `"OUT"`
(`_execute_system_command` calls `callback(result)` at lines 166-167),
contradicting "receives no output produced by shell commands". -/
theorem c1_counterexample_shell_output_reaches_callback :
    (execute_tasks oxBasic true "wd" true gShellOnly ⟨"start"⟩).events.contains
          (Event.cbCall Origin.shell "OUT") = true
      ∧ (execute_tasks oxBasic true "wd" true gShellOnly ⟨"start"⟩).ok = true := by
  decide

/-- C2 counterexample: when the query capability raises while dispatching
the first command of a task, the exception escapes the task-commands loop
(only `_execute_system_command` has its own handler), is caught by the
run-level `except`, and the run returns `False` — the task's remaining
command `"echo x"` is never dispatched, contradicting "execution
continues to the next command of the same task; the run is not
aborted". -/
theorem c2_counterexample_query_exception_aborts_run :
    (execute_tasks oxQueryBoom true "wd" true gAiThenShell ⟨"s"⟩).ok = false
      ∧ (execute_tasks oxQueryBoom true "wd" true gAiThenShell ⟨"s"⟩).events.contains
          (Event.shellDispatch "echo x") = false
      ∧ ((dictGet gAiThenShell.tasks "t1").map
            (fun t => t.commands) = some ["atlasai --query go", "echo x"]) := by
  decide

/-- C10 counterexample: the command `"atlasai  --query hi"` (two spaces)
has whitespace-separated tokens `["atlasai", "--query", "hi"]` — three
tokens with `"--query"` second, so the claim calls it valid — yet the
code's `split(' ', 2)` yields `["atlasai", "", "--query hi"]`, so
`_execute_atlasai_command` reports it invalid and skips it. -/
theorem c10_counterexample_whitespace_vs_single_space :
    claimWhitespaceTokens "atlasai  --query hi" = ["atlasai", "--query", "hi"]
      ∧ pyStartsWith "atlasai  --query hi" "atlasai" = true
      ∧ executeAtlasaiCommand oxBasic true "atlasai  --query hi"
          = ([Event.invalidAiNotice "atlasai  --query hi"], none) := by
  decide

/-- Callback invocations in an event trace, with the dispatching call
site and the content handed to the callback. -/
def cbTrace (evs : List Event) : List (Origin × String) :=
  evs.filterMap (fun e =>
    match e with
    | Event.cbCall o c => some (o, c)
    | _ => none)

theorem cbTrace_map_ai (chunks : List String) :
    cbTrace (chunks.map (fun c => Event.cbCall Origin.ai c))
      = chunks.map (fun c => (Origin.ai, c)) := by
  induction chunks with
  | nil => rfl
  | cons c rest ih => simpa [cbTrace] using ih

/-- C10 (amended): a command is routed to the AI channel exactly when it
starts with the plain prefix `"atlasai"`; an AI-routed command is valid
exactly when splitting it on single space characters at most twice yields
at least three fields with `"--query"` second; an invalid one is reported
with a notice and skipped — no shell dispatch, no raised exception. -/
theorem c10_amended_dispatch_classification (ox : Oracles) (vc : Bool) (wd : String)
    (hasCb : Bool) (cmd : String) (st : SysState) :
    (pyStartsWith cmd "atlasai" = true →
      dispatchCommand ox vc wd hasCb cmd st
        = ((executeAtlasaiCommand ox hasCb cmd).1, st,
            (executeAtlasaiCommand ox hasCb cmd).2))
    ∧ (pyStartsWith cmd "atlasai" = false →
      dispatchCommand ox vc wd hasCb cmd st
        = ((executeSystemCommand ox vc wd hasCb cmd st).1,
            (executeSystemCommand ox vc wd hasCb cmd st).2, none))
    ∧ (atlasaiQuery cmd = none →
      executeAtlasaiCommand ox hasCb cmd = ([Event.invalidAiNotice cmd], none))
    ∧ (atlasaiQuery cmd = none ↔
      ((pySplitChar ' ' 2 cmd.data).length < 3
        ∨ (pySplitChar ' ' 2 cmd.data).getD 1 [] ≠ "--query".data)) := by
  refine ⟨?_, ?_, ?_, ?_⟩
  · intro h
    simp [dispatchCommand, h]
  · intro h
    simp [dispatchCommand, h]
  · intro h
    simp [executeAtlasaiCommand, h]
  · simp only [atlasaiQuery]
    split
    case isTrue hc =>
      simp only [Bool.or_eq_true, decide_eq_true_eq, Bool.not_eq_eq_eq_not,
        Bool.not_true, decide_eq_false_iff_not] at hc
      simpa using hc
    case isFalse hc =>
      simp only [Bool.or_eq_true, decide_eq_true_eq, Bool.not_eq_eq_eq_not,
        Bool.not_true, decide_eq_false_iff_not] at hc
      push_neg at hc
      simp only [reduceCtorEq, false_iff, not_or, not_lt]
      push_neg
      exact hc

/-- C10 amended witness at `"atlasai --query hi"` and `"atlasai -x"`. -/
theorem c10_amended_witness :
    (pyStartsWith "atlasai -x y" "atlasai" = true
      ∧ atlasaiQuery "atlasai -x y" = none
      ∧ executeAtlasaiCommand oxBasic true "atlasai -x y"
          = ([Event.invalidAiNotice "atlasai -x y"], none))
    ∧ (pyStartsWith "echo hi" "atlasai" = false
      ∧ dispatchCommand oxBasic true "wd" true "echo hi" ⟨"s"⟩
          = ((executeSystemCommand oxBasic true "wd" true "echo hi" ⟨"s"⟩).1,
              (executeSystemCommand oxBasic true "wd" true "echo hi" ⟨"s"⟩).2, none)) :=
  ⟨⟨by decide, by decide,
    (c10_amended_dispatch_classification oxBasic true "wd" true "atlasai -x y" ⟨"s"⟩).2.2.1
      (by decide)⟩,
   ⟨by decide,
    (c10_amended_dispatch_classification oxBasic true "wd" true "echo hi" ⟨"s"⟩).2.1
      (by decide)⟩⟩

/-- C1 (amended): with a callback supplied, a valid AI-directed command
hands the callback exactly the chunks the query capability streams, in
order; a shell dispatch additionally hands the callback exactly one
chunk — the runner's combined result text, or `"Error: ..."` when the
runner raises. -/
theorem c1_amended_callback_receives (ox : Oracles) (vc : Bool) (wd : String)
    (st : SysState) :
    (∀ cmd q, atlasaiQuery cmd = some q →
      cbTrace (executeAtlasaiCommand ox true cmd).1
        = (ox.processQuery q).1.map (fun c => (Origin.ai, c)))
    ∧ (∀ cmd,
      cbTrace (executeSystemCommand ox vc wd true cmd st).1
        = [(Origin.shell,
            match ox.runCommand cmd with
            | Except.ok r => r
            | Except.error e => "Error: " ++ e)]) := by
  constructor
  · intro cmd q hq
    rcases hpq : ox.processQuery q with ⟨chunks, exn⟩
    simp only [executeAtlasaiCommand, hq, hpq]
    simpa [cbTrace] using cbTrace_map_ai chunks
  · intro cmd
    rcases hrc : ox.runCommand cmd with e | r
    · simp [executeSystemCommand, hrc, cbTrace]
    · simp only [executeSystemCommand, hrc]
      split_ifs <;> simp [cbTrace]

/-- C1 amended witness: a concrete valid AI command whose two chunks all
reach the callback, and a concrete shell dispatch whose result reaches
the callback once. -/
theorem c1_amended_witness :
    atlasaiQuery "atlasai --query hi" = some "hi"
    ∧ cbTrace (executeAtlasaiCommand oxTwoChunks true "atlasai --query hi").1
        = [(Origin.ai, "chunk1"), (Origin.ai, "chunk2")]
    ∧ cbTrace (executeSystemCommand oxTwoChunks true "wd" true "echo hi" ⟨"s"⟩).1
        = [(Origin.shell, "OUT")] := by
  refine ⟨by decide, ?_, ?_⟩
  · exact ((c1_amended_callback_receives oxTwoChunks true "wd" ⟨"s"⟩).1
      "atlasai --query hi" "hi" (by decide)).trans (by decide)
  · exact ((c1_amended_callback_receives oxTwoChunks true "wd" ⟨"s"⟩).2
      "echo hi").trans (by decide)

theorem executeAtlasai_no_runError (ox : Oracles) (hasCb : Bool) (cmd : String)
    (e : RunExn) : Event.runError e ∉ (executeAtlasaiCommand ox hasCb cmd).1 := by
  unfold executeAtlasaiCommand
  cases atlasaiQuery cmd with
  | none => simp
  | some q =>
    rcases ox.processQuery q with ⟨chunks, exn⟩
    cases hasCb <;> simp [List.mem_map]

theorem executeSystem_no_runError (ox : Oracles) (vc : Bool) (wd : String)
    (hasCb : Bool) (cmd : String) (st : SysState) (e : RunExn) :
    Event.runError e ∉ (executeSystemCommand ox vc wd hasCb cmd st).1 := by
  unfold executeSystemCommand
  rcases ox.runCommand cmd with er | r
  · split_ifs <;> simp
  · split_ifs <;> simp

theorem dispatch_no_runError (ox : Oracles) (vc : Bool) (wd : String)
    (hasCb : Bool) (cmd : String) (st : SysState) (e : RunExn) :
    Event.runError e ∉ (dispatchCommand ox vc wd hasCb cmd st).1 := by
  unfold dispatchCommand
  split
  · exact executeAtlasai_no_runError ox hasCb cmd e
  · exact executeSystem_no_runError ox vc wd hasCb cmd st e

theorem runCommands_no_runError (ox : Oracles) (vc : Bool) (wd : String)
    (hasCb : Bool) (e : RunExn) :
    ∀ (cmds : List String) (st : SysState),
      Event.runError e ∉ (runCommands ox vc wd hasCb cmds st).1 := by
  intro cmds
  induction cmds with
  | nil => intro st; simp [runCommands]
  | cons c rest ih =>
    intro st
    have hd := dispatch_no_runError ox vc wd hasCb c st e
    rcases hdc : dispatchCommand ox vc wd hasCb c st with ⟨evs, st', exn⟩
    rw [hdc] at hd
    cases exn with
    | some ex => simp only [runCommands, hdc]; exact hd
    | none =>
      simp only [runCommands, hdc]
      rcases hrc : runCommands ox vc wd hasCb rest st' with ⟨evs2, st2, exn2⟩
      have h2 := ih st'
      rw [hrc] at h2
      simp only [List.mem_append]
      rintro (h | h)
      · exact hd h
      · exact h2 h

theorem runTaskBatch_no_runError (ox : Oracles) (vc : Bool) (wd : String)
    (hasCb : Bool) (e : RunExn) :
    ∀ (ids : List String) (g : TaskGraph) (st : SysState),
      Event.runError e ∉ (runTaskBatch ox vc wd hasCb ids g st).1 := by
  intro ids
  induction ids with
  | nil => intro g st; simp [runTaskBatch]
  | cons id rest ih =>
    intro g st
    cases hg : dictGet g.tasks id with
    | none => simp [runTaskBatch, hg]
    | some task =>
      have hc := runCommands_no_runError ox vc wd hasCb e task.commands st
      rcases hrc : runCommands ox vc wd hasCb task.commands st with ⟨evs, st', exn⟩
      rw [hrc] at hc
      cases exn with
      | some ex => simp only [runTaskBatch, hg, hrc]; exact hc
      | none =>
        simp only [runTaskBatch, hg, hrc]
        have h2 := ih (g.mark_as_completed id) st'
        rcases hrb : runTaskBatch ox vc wd hasCb rest (g.mark_as_completed id) st'
          with ⟨evs2, g2, st2, exn2⟩
        rw [hrb] at h2
        simp only [List.mem_append, List.mem_singleton]
        rintro ((h | h) | h)
        · exact hc h
        · cases h
        · exact h2 h

theorem runLoop_no_runError (ox : Oracles) (vc : Bool) (wd : String)
    (hasCb : Bool) (e : RunExn) :
    ∀ (fuel : Nat) (g : TaskGraph) (st : SysState),
      Event.runError e ∉ (runLoop ox vc wd hasCb fuel g st).1 := by
  intro fuel
  induction fuel with
  | zero => intro g st; simp [runLoop]
  | succ n ih =>
    intro g st
    by_cases hall : g.all_tasks_completed
    · simp [runLoop, hall]
    · simp only [runLoop, hall]
      by_cases hnext : g.get_next_tasks.isEmpty
      · simp [hnext]
      · simp only [hnext]
        have hb := runTaskBatch_no_runError ox vc wd hasCb e g.get_next_tasks g st
        rcases hrb : runTaskBatch ox vc wd hasCb g.get_next_tasks g st
          with ⟨evs, g', st', exn⟩
        rw [hrb] at hb
        cases exn with
        | some ex => simpa using hb
        | none =>
          have h2 := ih g' st'
          rcases hrl : runLoop ox vc wd hasCb n g' st' with ⟨evs2, g2, st2, out⟩
          rw [hrl] at h2
          simp only [Bool.false_eq_true, if_false, List.mem_append]
          rintro (h | h)
          · exact hb h
          · exact h2 h

/-- C2 (amended): the two dispatch channels recover from exceptions at
different scopes. An exception raised by the shell command runner is
absorbed inside `_execute_system_command` — the dispatch reports
`"Error: ..."` through the callback, raises nothing, and the command loop
continues with the remaining commands. An exception raised by the query
capability during an AI-directed dispatch escapes the dispatch, ends the
command loop at that command, and is caught only by the run-level
`except` handler, which reports it and makes the whole run return
`False`. -/
theorem c2_amended_exception_policy (ox : Oracles) (vc : Bool) (wd : String)
    (hasCb : Bool) :
    (∀ cmd st, pyStartsWith cmd "atlasai" = false →
      (dispatchCommand ox vc wd hasCb cmd st).2.2 = none)
    ∧ (∀ cmd st e, ox.runCommand cmd = Except.error e →
      Event.cbCall Origin.shell ("Error: " ++ e)
        ∈ (executeSystemCommand ox vc wd true cmd st).1)
    ∧ (∀ cmd rest st, pyStartsWith cmd "atlasai" = false →
      runCommands ox vc wd hasCb (cmd :: rest) st
        = ((executeSystemCommand ox vc wd hasCb cmd st).1
              ++ (runCommands ox vc wd hasCb rest
                    (executeSystemCommand ox vc wd hasCb cmd st).2).1,
            (runCommands ox vc wd hasCb rest
              (executeSystemCommand ox vc wd hasCb cmd st).2).2))
    ∧ (∀ cmd q chunks e st, atlasaiQuery cmd = some q →
      ox.processQuery q = (chunks, some e) →
      pyStartsWith cmd "atlasai" = true →
      (dispatchCommand ox vc wd hasCb cmd st).2.2 = some (RunExn.queryExn e))
    ∧ (∀ cmd rest st evs st' e,
      dispatchCommand ox vc wd hasCb cmd st = (evs, st', some e) →
      runCommands ox vc wd hasCb (cmd :: rest) st = (evs, st', some e))
    ∧ (∀ g st e, Event.runError e ∈ (execute_tasks ox vc wd hasCb g st).events →
      (execute_tasks ox vc wd hasCb g st).ok = false) := by
  refine ⟨?_, ?_, ?_, ?_, ?_, ?_⟩
  · intro cmd st h
    simp [dispatchCommand, h]
  · intro cmd st e h
    simp [executeSystemCommand, h]
  · intro cmd rest st h
    simp [runCommands, dispatchCommand, h]
  · intro cmd q chunks e st hq hpq h
    simp [dispatchCommand, h, executeAtlasaiCommand, hq, hpq]
  · intro cmd rest st evs st' e hd
    simp [runCommands, hd]
  · intro g st e
    unfold execute_tasks
    by_cases hempty : g.tasks.isEmpty
    · simp [hempty]
    · simp only [hempty, Bool.false_eq_true, if_false]
      cases hord : g.get_execution_order with
      | error ex => intro _; rfl
      | ok order =>
        have hl := runLoop_no_runError ox vc wd hasCb e (g.tasks.length + 1) g st
        rcases hrl : runLoop ox vc wd hasCb (g.tasks.length + 1) g st
          with ⟨evs, g', st', out⟩
        rw [hrl] at hl
        cases out with
        | success => intro h; exact absurd h hl
        | stuck => intro _; rfl
        | exn ex => intro _; rfl
        | fuelOut => intro _; rfl

/-- C2 amended witness: a shell-runner exception is reported through the
callback and the run still succeeds, while the query exception of the
counterexample graph aborts the run with `False`. -/
theorem c2_amended_witness :
    (oxQueryBoom.processQuery "go" = ([], some "boom")
      ∧ atlasaiQuery "atlasai --query go" = some "go"
      ∧ (dispatchCommand oxQueryBoom true "wd" true "atlasai --query go" ⟨"s"⟩).2.2
          = some (RunExn.queryExn "boom"))
    ∧ (pyStartsWith "echo hi" "atlasai" = false
      ∧ (dispatchCommand oxQueryBoom true "wd" true "echo hi" ⟨"s"⟩).2.2 = none) := by
  constructor
  · refine ⟨rfl, by decide, ?_⟩
    exact (c2_amended_exception_policy oxQueryBoom true "wd" true).2.2.2.1
      "atlasai --query go" "go" [] "boom" ⟨"s"⟩ (by decide) rfl (by decide)
  · refine ⟨by decide, ?_⟩
    exact (c2_amended_exception_policy oxQueryBoom true "wd" true).1
      "echo hi" ⟨"s"⟩ (by decide)

theorem dictGet_eq_none_iff (ts : List (String × TaskDefinition)) (k : String) :
    dictGet ts k = none ↔ k ∉ ts.map Prod.fst := by
  induction ts with
  | nil => simp [dictGet]
  | cons p rest ih =>
    rcases p with ⟨a, b⟩
    by_cases hak : a = k
    · subst hak
      simp [dictGet]
    · simp only [dictGet, hak, if_false, List.map_cons, List.mem_cons, not_or]
      rw [ih]
      constructor
      · intro h
        exact ⟨fun hk => hak hk.symm, h⟩
      · intro h
        exact h.2

theorem dictGet_eq_some_iff (ts : List (String × TaskDefinition))
    (hnd : (ts.map Prod.fst).Nodup) (k : String) (v : TaskDefinition) :
    dictGet ts k = some v ↔ (k, v) ∈ ts := by
  induction ts with
  | nil => simp [dictGet]
  | cons p rest ih =>
    rcases p with ⟨a, b⟩
    simp only [List.map_cons, List.nodup_cons] at hnd
    rw [show dictGet ((a, b) :: rest) k = if a = k then some b else dictGet rest k from rfl]
    by_cases hak : a = k
    · rw [if_pos hak]
      subst hak
      constructor
      · intro h
        rw [Option.some.injEq] at h
        subst h
        exact List.mem_cons_self _ _
      · intro h
        rcases List.mem_cons.mp h with heq | hmem
        · injection heq with h1 h2
          exact congrArg some h2.symm
        · exact absurd (List.mem_map_of_mem Prod.fst hmem) hnd.1
    · rw [if_neg hak]
      rw [ih hnd.2]
      constructor
      · exact fun h => List.mem_cons_of_mem _ h
      · intro h
        rcases List.mem_cons.mp h with heq | hmem
        · injection heq with h1 h2
          exact absurd h1.symm hak
        · exact hmem

/-- C3: a task id is in the computed ready set exactly when the task is
present, not completed, and every dependency id present in the task
mapping refers to a completed task — absent dependency ids never block.
The two hypotheses state the task-mapping invariants of the data model:
ids are unique and non-empty. -/
theorem c3_ready_set_iff (g : TaskGraph) (tid : String)
    (hnd : (g.tasks.map Prod.fst).Nodup)
    (hne : "" ∉ g.tasks.map Prod.fst) :
    tid ∈ g.get_next_tasks ↔
      ∃ t, dictGet g.tasks tid = some t ∧ t.is_completed = false ∧
        ∀ dep ∈ t.depends_on, ∀ td, dictGet g.tasks dep = some td →
          td.is_completed = true := by
  unfold TaskGraph.get_next_tasks
  rw [List.mem_map]
  constructor
  · rintro ⟨p, hp, hfst⟩
    rw [List.mem_filter] at hp
    obtain ⟨hmem, hpred⟩ := hp
    simp only [Bool.and_eq_true, Bool.not_eq_eq_eq_not, Bool.not_true,
      List.all_eq_true] at hpred
    refine ⟨p.2, ?_, hpred.1, ?_⟩
    · rw [dictGet_eq_some_iff g.tasks hnd]
      rw [← hfst]
      exact hmem
    · intro dep hdep td htd
      have hcl := hpred.2 dep hdep
      by_cases hdeq : dep = ""
      · subst hdeq
        have h0 : dictGet g.tasks "" = none := (dictGet_eq_none_iff g.tasks "").mpr hne
        rw [h0] at htd
        cases htd
      · rw [if_neg hdeq] at hcl
        rw [htd] at hcl
        exact hcl
  · rintro ⟨t, hget, hnc, hdeps⟩
    refine ⟨(tid, t), ?_, rfl⟩
    rw [List.mem_filter]
    constructor
    · rw [← dictGet_eq_some_iff g.tasks hnd]
      exact hget
    · simp only [Bool.and_eq_true, Bool.not_eq_eq_eq_not, Bool.not_true,
        List.all_eq_true]
      refine ⟨hnc, ?_⟩
      intro dep hdep
      by_cases hdeq : dep = ""
      · rw [if_pos hdeq]
      · rw [if_neg hdeq]
        cases hdg : dictGet g.tasks dep with
        | none => rfl
        | some td => exact hdeps dep hdep td hdg

/-- C3 witness on the chained graph with `t1` completed: `t2` is ready. -/
theorem c3_ready_set_witness :
    ((gChain2.mark_as_completed "t1").tasks.map Prod.fst).Nodup
    ∧ "" ∉ (gChain2.mark_as_completed "t1").tasks.map Prod.fst
    ∧ "t2" ∈ (gChain2.mark_as_completed "t1").get_next_tasks
    ∧ (∃ t, dictGet (gChain2.mark_as_completed "t1").tasks "t2" = some t ∧
        t.is_completed = false ∧
        ∀ dep ∈ t.depends_on, ∀ td,
          dictGet (gChain2.mark_as_completed "t1").tasks dep = some td →
          td.is_completed = true) := by
  refine ⟨by decide, by decide, by decide, ?_⟩
  exact (c3_ready_set_iff (gChain2.mark_as_completed "t1") "t2"
    (by decide) (by decide)).mp (by decide)

/-- One task entry evolving across a run: the key and every field except
the completion flag are unchanged, and the completion flag never goes
back from `true` to `false`. -/
def MarkStep (p q : String × TaskDefinition) : Prop :=
  q.1 = p.1 ∧ q.2.id = p.2.id ∧ q.2.title = p.2.title
    ∧ q.2.description = p.2.description ∧ q.2.depends_on = p.2.depends_on
    ∧ q.2.commands = p.2.commands
    ∧ (p.2.is_completed = true → q.2.is_completed = true)

/-- The task mapping evolving across a run: entrywise `MarkStep`. -/
def OnlyMarks (ts ts' : List (String × TaskDefinition)) : Prop :=
  List.Forall₂ MarkStep ts ts'

theorem markStep_refl (p : String × TaskDefinition) : MarkStep p p :=
  ⟨rfl, rfl, rfl, rfl, rfl, rfl, fun h => h⟩

theorem markStep_trans {p q r : String × TaskDefinition}
    (h1 : MarkStep p q) (h2 : MarkStep q r) : MarkStep p r :=
  ⟨h2.1.trans h1.1, h2.2.1.trans h1.2.1, h2.2.2.1.trans h1.2.2.1,
   h2.2.2.2.1.trans h1.2.2.2.1, h2.2.2.2.2.1.trans h1.2.2.2.2.1,
   h2.2.2.2.2.2.1.trans h1.2.2.2.2.2.1,
   fun h => h2.2.2.2.2.2.2 (h1.2.2.2.2.2.2 h)⟩

theorem onlyMarks_refl (ts : List (String × TaskDefinition)) : OnlyMarks ts ts :=
  List.forall₂_same.mpr (fun p _ => markStep_refl p)

theorem onlyMarks_trans {a b c : List (String × TaskDefinition)}
    (h1 : OnlyMarks a b) (h2 : OnlyMarks b c) : OnlyMarks a c := by
  induction h1 generalizing c with
  | nil => cases h2; exact List.Forall₂.nil
  | cons hab h ih =>
    cases h2 with
    | cons hbc h2' => exact List.Forall₂.cons (markStep_trans hab hbc) (ih h2')

theorem onlyMarks_mark (g : TaskGraph) (id : String) :
    OnlyMarks g.tasks (g.mark_as_completed id).tasks := by
  unfold TaskGraph.mark_as_completed OnlyMarks
  induction g.tasks with
  | nil => exact List.Forall₂.nil
  | cons p rest ih =>
    rw [List.map_cons]
    refine List.Forall₂.cons ?_ ih
    by_cases hp : p.1 = id
    · rw [if_pos hp]
      exact ⟨rfl, rfl, rfl, rfl, rfl, rfl, fun _ => rfl⟩
    · rw [if_neg hp]
      exact markStep_refl p

theorem runTaskBatch_onlyMarks (ox : Oracles) (vc : Bool) (wd : String) (hasCb : Bool) :
    ∀ (ids : List String) (g : TaskGraph) (st : SysState),
      OnlyMarks g.tasks (runTaskBatch ox vc wd hasCb ids g st).2.1.tasks := by
  intro ids
  induction ids with
  | nil => intro g st; exact onlyMarks_refl g.tasks
  | cons id rest ih =>
    intro g st
    cases hg : dictGet g.tasks id with
    | none => simp only [runTaskBatch, hg]; exact onlyMarks_refl g.tasks
    | some task =>
      rcases hrc : runCommands ox vc wd hasCb task.commands st with ⟨evs, st', exn⟩
      cases exn with
      | some ex =>
        simp only [runTaskBatch, hg, hrc]
        exact onlyMarks_refl g.tasks
      | none =>
        simp only [runTaskBatch, hg, hrc]
        have h1 := onlyMarks_mark g id
        have h2 := ih (g.mark_as_completed id) st'
        rcases hrb : runTaskBatch ox vc wd hasCb rest (g.mark_as_completed id) st'
          with ⟨evs2, g2, st2, exn2⟩
        rw [hrb] at h2
        exact onlyMarks_trans h1 h2

theorem runLoop_onlyMarks (ox : Oracles) (vc : Bool) (wd : String) (hasCb : Bool) :
    ∀ (fuel : Nat) (g : TaskGraph) (st : SysState),
      OnlyMarks g.tasks (runLoop ox vc wd hasCb fuel g st).2.1.tasks := by
  intro fuel
  induction fuel with
  | zero => intro g st; exact onlyMarks_refl g.tasks
  | succ n ih =>
    intro g st
    by_cases hall : g.all_tasks_completed
    · simp only [runLoop, hall, if_pos]
      exact onlyMarks_refl g.tasks
    · simp only [runLoop, hall, Bool.false_eq_true, if_false]
      by_cases hnext : g.get_next_tasks.isEmpty
      · simp only [hnext, if_pos]
        exact onlyMarks_refl g.tasks
      · simp only [hnext, Bool.false_eq_true, if_false]
        have h1 := runTaskBatch_onlyMarks ox vc wd hasCb g.get_next_tasks g st
        rcases hrb : runTaskBatch ox vc wd hasCb g.get_next_tasks g st
          with ⟨evs, g', st', exn⟩
        rw [hrb] at h1
        cases exn with
        | some ex => exact h1
        | none =>
          have h2 := ih g' st'
          rcases hrl : runLoop ox vc wd hasCb n g' st' with ⟨evs2, g2, st2, out⟩
          rw [hrl] at h2
          exact onlyMarks_trans h1 h2

theorem runLoop_success_completed (ox : Oracles) (vc : Bool) (wd : String)
    (hasCb : Bool) :
    ∀ (fuel : Nat) (g : TaskGraph) (st : SysState),
      (runLoop ox vc wd hasCb fuel g st).2.2.2 = LoopOutcome.success →
      (runLoop ox vc wd hasCb fuel g st).2.1.all_tasks_completed = true := by
  intro fuel
  induction fuel with
  | zero => intro g st h; cases h
  | succ n ih =>
    intro g st
    by_cases hall : g.all_tasks_completed
    · intro _
      simp [runLoop, hall]
    · by_cases hnext : g.get_next_tasks.isEmpty
      · simp [runLoop, hall, hnext]
      · simp only [runLoop, hall, hnext, Bool.false_eq_true, if_false]
        rcases hrb : runTaskBatch ox vc wd hasCb g.get_next_tasks g st
          with ⟨evs, g', st', exn⟩
        cases exn with
        | some ex => intro h; cases h
        | none =>
          have h2 := ih g' st'
          rcases hrl : runLoop ox vc wd hasCb n g' st' with ⟨evs2, g2, st2, out⟩
          rw [hrl] at h2
          exact h2

theorem foldl_addEdge_tasks (deps : List String) (tid : String) :
    ∀ (acc : TaskGraph),
      (deps.foldl (fun acc dep => if dep ≠ "" then addEdgeNX acc dep tid else acc)
        acc).tasks = acc.tasks := by
  induction deps with
  | nil => intro acc; rfl
  | cons d rest ih =>
    intro acc
    rw [List.foldl_cons, ih]
    by_cases hd : d ≠ ""
    · rw [if_pos hd]; rfl
    · rw [if_neg hd]

theorem add_task_tasks (g : TaskGraph) (t : TaskDefinition) :
    (g.add_task t).tasks = dictInsert t.id t g.tasks := by
  unfold TaskGraph.add_task
  rw [foldl_addEdge_tasks]

theorem dictInsert_all_false (k : String) (v : TaskDefinition)
    (ts : List (String × TaskDefinition))
    (hts : ∀ p ∈ ts, p.2.is_completed = false) (hv : v.is_completed = false) :
    ∀ p ∈ dictInsert k v ts, p.2.is_completed = false := by
  induction ts with
  | nil =>
    intro p hp
    rcases List.mem_singleton.mp hp with rfl
    exact hv
  | cons q rest ih =>
    intro p hp
    simp only [dictInsert] at hp
    by_cases hq : q.1 = k
    · rw [if_pos hq] at hp
      rcases List.mem_cons.mp hp with rfl | hmem
      · exact hv
      · exact hts p (List.mem_cons_of_mem q hmem)
    · rw [if_neg hq] at hp
      rcases List.mem_cons.mp hp with rfl | hmem
      · exact hts q (List.mem_cons_self q rest)
      · exact ih (fun r hr => hts r (List.mem_cons_of_mem q hr)) p hmem

theorem parse_all_not_completed (content : String) :
    ∀ p ∈ (parse_task_file content).tasks, p.2.is_completed = false := by
  unfold parse_task_file
  generalize scanTasks content.data = items
  have hgen : ∀ (g : TaskGraph), (∀ p ∈ g.tasks, p.2.is_completed = false) →
      ∀ p ∈ (items.foldl (fun g t => g.add_task (buildTask t.1 t.2.1 t.2.2)) g).tasks,
        p.2.is_completed = false := by
    induction items with
    | nil => intro g hg; exact hg
    | cons it rest ih =>
      intro g hg
      rw [List.foldl_cons]
      apply ih
      rw [add_task_tasks]
      exact dictInsert_all_false _ _ _ hg rfl
  exact hgen TaskGraph.empty (by intro p hp; cases hp)

/-- C5: the completion flag starts `false` for every task the parser
builds, the executor's final mapping relates to the initial one
entrywise with all fields except `is_completed` unchanged and
`is_completed` never reverting from `true` (the flag being Boolean and
monotone, it changes `false -> true` at most once per run), and a run
returning `True` ends with every task completed — so in a successful run
over a parsed graph each flag transitions exactly once. Only
`mark_as_completed` (invoked by the executor after a task's commands) is
involved in changing the flag. -/
theorem c5_completion_monotonicity :
    (∀ content, ∀ p ∈ (parse_task_file content).tasks, p.2.is_completed = false)
    ∧ (∀ (ox : Oracles) (vc : Bool) (wd : String) (hasCb : Bool) (g : TaskGraph)
        (st : SysState),
        OnlyMarks g.tasks (execute_tasks ox vc wd hasCb g st).graph.tasks)
    ∧ (∀ (ox : Oracles) (vc : Bool) (wd : String) (hasCb : Bool) (g : TaskGraph)
        (st : SysState),
        (execute_tasks ox vc wd hasCb g st).ok = true →
        (execute_tasks ox vc wd hasCb g st).graph.all_tasks_completed = true) := by
  refine ⟨parse_all_not_completed, ?_, ?_⟩
  · intro ox vc wd hasCb g st
    unfold execute_tasks
    by_cases hempty : g.tasks.isEmpty
    · simp only [hempty, if_pos]
      exact onlyMarks_refl g.tasks
    · simp only [hempty, Bool.false_eq_true, if_false]
      cases hord : g.get_execution_order with
      | error e => exact onlyMarks_refl g.tasks
      | ok order =>
        have h1 := runLoop_onlyMarks ox vc wd hasCb (g.tasks.length + 1) g st
        rcases hrl : runLoop ox vc wd hasCb (g.tasks.length + 1) g st
          with ⟨evs, g', st', out⟩
        rw [hrl] at h1
        cases out <;> exact h1
  · intro ox vc wd hasCb g st
    unfold execute_tasks
    by_cases hempty : g.tasks.isEmpty
    · simp only [hempty, if_pos]
      intro h; cases h
    · simp only [hempty, Bool.false_eq_true, if_false]
      cases hord : g.get_execution_order with
      | error e => intro h; cases h
      | ok order =>
        have h1 := runLoop_success_completed ox vc wd hasCb (g.tasks.length + 1) g st
        rcases hrl : runLoop ox vc wd hasCb (g.tasks.length + 1) g st
          with ⟨evs, g', st', out⟩
        rw [hrl] at h1
        cases out with
        | success => intro _; exact h1 rfl
        | stuck => intro h; cases h
        | exn e => intro h; cases h
        | fuelOut => intro h; cases h

/-- C5 witness: the chained two-task graph parses commands as given, runs
to success, and ends fully completed. -/
theorem c5_completion_witness :
    (execute_tasks oxBasic true "wd" true gChain2 ⟨"s"⟩).ok = true
    ∧ (execute_tasks oxBasic true "wd" true gChain2 ⟨"s"⟩).graph.all_tasks_completed
        = true
    ∧ (∀ p ∈ gChain2.tasks, p.2.is_completed = false) := by
  refine ⟨by decide, ?_, by decide⟩
  exact c5_completion_monotonicity.2.2 oxBasic true "wd" true gChain2 ⟨"s"⟩ (by decide)

theorem mem_dedupL (s : List String) (x : String) : x ∈ dedupL s ↔ x ∈ s := by
  induction s with
  | nil => simp [dedupL]
  | cons a rest ih =>
    simp only [dedupL, List.mem_cons, List.mem_filter]
    constructor
    · rintro (rfl | ⟨hmem, -⟩)
      · exact Or.inl rfl
      · exact Or.inr (ih.mp hmem)
    · rintro (rfl | hmem)
      · exact Or.inl rfl
      · by_cases hxa : x = a
        · exact Or.inl hxa
        · exact Or.inr ⟨ih.mpr hmem, by simp [hxa]⟩

theorem nodup_dedupL (s : List String) : (dedupL s).Nodup := by
  induction s with
  | nil => exact List.nodup_nil
  | cons a rest ih =>
    simp only [dedupL, List.nodup_cons]
    constructor
    · intro hmem
      rcases List.mem_filter.mp hmem with ⟨-, hne⟩
      simp at hne
    · exact ih.filter _

theorem filter_mem_sublistsOf (p : String → Bool) :
    ∀ (base : List String), base.filter p ∈ sublistsOf base := by
  intro base
  induction base with
  | nil => simp [sublistsOf, List.filter]
  | cons a rest ih =>
    simp only [sublistsOf, List.mem_append, List.filter]
    by_cases hp : p a
    · rw [hp]
      exact Or.inr (List.mem_map_of_mem _ ih)
    · rw [Bool.not_eq_true] at hp
      rw [hp]
      exact Or.inl ih

theorem mem_insertEverywhere_of (a : String) :
    ∀ (l : List String), a ∈ l → l ∈ insertEverywhere a (l.erase a) := by
  intro l
  induction l with
  | nil => intro h; cases h
  | cons x xs ih =>
    intro h
    by_cases hxa : x = a
    · subst hxa
      rw [List.erase_cons_head]
      cases xs with
      | nil => simp [insertEverywhere]
      | cons b r => simp [insertEverywhere]
    · have hmem : a ∈ xs := by
        rcases List.mem_cons.mp h with heq | hm
        · exact absurd heq.symm hxa
        · exact hm
      rw [List.erase_cons_tail (by simp [hxa])]
      simp only [insertEverywhere, List.mem_cons]
      exact Or.inr (List.mem_map_of_mem _ (ih hmem))

theorem perm_mem_permsOf :
    ∀ (f l : List String), l.Perm f → l ∈ permsOf f := by
  intro f
  induction f with
  | nil =>
    intro l h
    rw [List.perm_nil.mp h]
    simp [permsOf]
  | cons a rest ih =>
    intro l h
    have hmem : a ∈ l := h.symm.subset (List.mem_cons_self a rest)
    have hperm : List.Perm (l.erase a) rest := by
      have h1 : List.Perm l (a :: l.erase a) := List.perm_cons_erase hmem
      exact (List.perm_cons a).mp (h1.symm.trans h)
    simp only [permsOf, List.mem_flatMap]
    exact ⟨l.erase a, ih (l.erase a) hperm, mem_insertEverywhere_of a l hmem⟩

theorem chainB_out_edges (edges : List (String × String)) :
    ∀ (rest : List String) (a h0 : String),
      chainB edges (a :: rest) = true → (rest.getLastD a, h0) ∈ edges →
      ∀ x ∈ a :: rest, ∃ y, (x, y) ∈ edges := by
  intro rest
  induction rest with
  | nil =>
    intro a h0 hc hw x hx
    rcases List.mem_singleton.mp hx with rfl
    exact ⟨h0, hw⟩
  | cons b rs ih =>
    intro a h0 hc hw x hx
    simp only [chainB, Bool.and_eq_true] at hc
    have hab : (a, b) ∈ edges := by
      have := hc.1
      unfold edgeMemB at this
      exact of_decide_eq_true this
    rcases List.mem_cons.mp hx with rfl | hx2
    · exact ⟨b, hab⟩
    · refine ih b h0 hc.2 ?_ x hx2
      rw [List.getLastD_cons] at hw
      exact hw

theorem isCycleBool_out_edges {edges : List (String × String)} {l : List String}
    (h : isCycleBool edges l = true) : ∀ x ∈ l, ∃ y, (x, y) ∈ edges := by
  cases l with
  | nil => cases h
  | cons a rest =>
    simp only [isCycleBool, Bool.and_eq_true] at h
    have hw : (rest.getLastD a, a) ∈ edges := by
      have := h.2
      unfold edgeMemB at this
      exact of_decide_eq_true this
    exact chainB_out_edges edges rest a a h.1 hw

theorem mem_simpleCyclesOf {g : TaskGraph} {l : List String}
    (hnd : l.Nodup) (hcyc : isCycleBool g.edges l = true)
    (hsub : ∀ x ∈ l, x ∈ g.nodes) : l ∈ simpleCyclesOf g := by
  unfold simpleCyclesOf
  rw [List.mem_filter]
  refine ⟨?_, hcyc⟩
  rw [List.mem_flatten]
  refine ⟨permsOf ((dedupL g.nodes).filter (fun x => decide (x ∈ l))), ?_, ?_⟩
  · exact List.mem_map_of_mem permsOf (filter_mem_sublistsOf _ (dedupL g.nodes))
  · apply perm_mem_permsOf
    have hfnd : ((dedupL g.nodes).filter (fun x => decide (x ∈ l))).Nodup :=
      (nodup_dedupL g.nodes).filter _
    rw [List.perm_ext_iff_of_nodup hnd hfnd]
    intro x
    rw [List.mem_filter, mem_dedupL]
    constructor
    · intro hx
      exact ⟨hsub x hx, by simpa using hx⟩
    · rintro ⟨-, hx⟩
      simpa using hx

/-- C4: a graph whose edge relation contains a (simple) cycle is rejected
by `execute_tasks` before any command is dispatched: `get_execution_order`
raises the cycle `ValueError`, the run-level handler reports the error —
which names the detected cycles, our cycle among them — and the run
returns `False` with an event trace containing only that report. The
`edgeInvB` hypothesis is the construction invariant every graph built by
`add_task` satisfies. -/
theorem c4_cycle_rejected_before_dispatch (g : TaskGraph) (l : List String)
    (hinv : edgeInvB g = true) (hnd : l.Nodup)
    (hcyc : isCycleBool g.edges l = true)
    (ox : Oracles) (vc : Bool) (wd : String) (hasCb : Bool) (st : SysState) :
    ∃ cs, execute_tasks ox vc wd hasCb g st
        = { ok := false, events := [Event.runError (RunExn.cycles cs)]
            graph := g, state := st }
      ∧ l ∈ cs := by
  have hinv' := List.all_eq_true.mp hinv
  have hout := isCycleBool_out_edges hcyc
  have hsub : ∀ x ∈ l, x ∈ g.nodes := by
    intro x hx
    obtain ⟨y, hy⟩ := hout x hx
    have := hinv' (x, y) hy
    simp only [Bool.and_eq_true] at this
    have hc := this.1.1
    simpa using hc
  have hmem := mem_simpleCyclesOf hnd hcyc hsub
  have hne : g.tasks.isEmpty = false := by
    cases l with
    | nil => cases hcyc
    | cons a rest =>
      simp only [isCycleBool, Bool.and_eq_true] at hcyc
      have hw : (rest.getLastD a, a) ∈ g.edges := by
        have := hcyc.2
        unfold edgeMemB at this
        exact of_decide_eq_true this
      have := hinv' (rest.getLastD a, a) hw
      simp only [Bool.and_eq_true] at this
      have hsome := this.2
      cases hts : g.tasks with
      | nil => rw [hts] at hsome; simp [dictGet] at hsome
      | cons q qs => rfl
  refine ⟨simpleCyclesOf g, ?_, hmem⟩
  unfold execute_tasks
  rw [hne]
  have hord : g.get_execution_order
      = Except.error (RunExn.cycles (simpleCyclesOf g)) := by
    unfold TaskGraph.get_execution_order
    rw [if_neg ?_]
    intro hcs
    rw [List.isEmpty_iff] at hcs
    rw [hcs] at hmem
    cases hmem
  rw [hord]
  rfl

/-- C4 witness: the spec's mutual-dependency example `A ↔ B` is rejected
with the cycle named in the surfaced error. -/
theorem c4_cycle_witness :
    edgeInvB gCycAB = true ∧ ["A", "B"].Nodup
    ∧ isCycleBool gCycAB.edges ["A", "B"] = true
    ∧ ∃ cs, execute_tasks oxBasic true "wd" true gCycAB ⟨"s"⟩
        = { ok := false, events := [Event.runError (RunExn.cycles cs)]
            graph := gCycAB, state := ⟨"s"⟩ }
      ∧ ["A", "B"] ∈ cs :=
  ⟨by decide, by decide, by decide,
   c4_cycle_rejected_before_dispatch gCycAB ["A", "B"] (by decide) (by decide)
     (by decide) oxBasic true "wd" true ⟨"s"⟩⟩

/-! ## Infrastructure for the description/commands boundary proof (C8) -/

/-- The backtick character. -/
def btick : Char := Char.ofNat 96

theorem fenceMark_eq : fenceMark = [btick, btick, btick] := by decide

theorem startsWithLit_append_self (lit ys : List Char) :
    startsWithLit lit (lit ++ ys) = true := by
  induction lit with
  | nil => rfl
  | cons a as ih => simp [startsWithLit, ih]

theorem startsWithLit_cons_false {a b : Char} (as bs : List Char) (h : a ≠ b) :
    startsWithLit (a :: as) (b :: bs) = false := by
  simp [startsWithLit, h]

theorem splitFirstSub_of_startsWith {marker s : List Char} (hm : marker ≠ [])
    (h : startsWithLit marker s = true) :
    splitFirstSub marker s = some ([], s.drop marker.length) := by
  cases s with
  | nil =>
    cases marker with
    | nil => exact absurd rfl hm
    | cons a as => cases h
  | cons c rest => simp [splitFirstSub, h]

theorem splitFirstSub_cons_skip {marker : List Char} {c : Char} {rest : List Char}
    (h : startsWithLit marker (c :: rest) = false) :
    splitFirstSub marker (c :: rest)
      = (splitFirstSub marker rest).map (fun p => (c :: p.1, p.2)) := by
  simp [splitFirstSub, h]

theorem splitFirstSub_fence (xs ys : List Char) (hx : ∀ c ∈ xs, c ≠ btick) :
    splitFirstSub fenceMark (xs ++ fenceMark ++ ys) = some (xs, ys) := by
  induction xs with
  | nil =>
    rw [List.nil_append]
    rw [splitFirstSub_of_startsWith (by simp [fenceMark]) (startsWithLit_append_self _ _)]
    rw [List.drop_left]
  | cons c rest ih =>
    have hc : c ≠ btick := hx c (List.mem_cons_self c rest)
    have hstart : startsWithLit fenceMark ((c :: rest) ++ fenceMark ++ ys) = false := by
      rw [fenceMark_eq]
      exact startsWithLit_cons_false _ _ (fun h => hc h.symm)
    rw [List.cons_append, List.cons_append] at hstart ⊢
    rw [splitFirstSub_cons_skip hstart]
    rw [ih (fun d hd => hx d (List.mem_cons_of_mem c hd))]
    rfl

theorem takeWhile_append_stop (p : Char → Bool) (xs : List Char) {y : Char}
    (ys : List Char) (hxs : ∀ c ∈ xs, p c = true) (hy : p y = false) :
    (xs ++ y :: ys).takeWhile p = xs := by
  induction xs with
  | nil => simp [List.takeWhile, hy]
  | cons c rest ih =>
    have hc := hxs c (List.mem_cons_self c rest)
    rw [List.cons_append, List.takeWhile_cons, hc]
    simp only [if_true]
    rw [ih (fun d hd => hxs d (List.mem_cons_of_mem c hd))]

theorem drop_length_takeWhile (p : Char → Bool) (l : List Char) :
    l.drop (l.takeWhile p).length = l.dropWhile p := by
  induction l with
  | nil => rfl
  | cons c rest ih =>
    rw [List.takeWhile_cons, List.dropWhile_cons]
    by_cases hc : p c
    · rw [if_pos hc, if_pos hc]
      simpa using ih
    · rw [if_neg hc, if_neg hc]
      rfl

theorem dropWhile_append_stop (p : Char → Bool) (xs : List Char) {y : Char}
    (ys : List Char) (hy : p y = false) :
    (xs ++ y :: ys).dropWhile p = xs.dropWhile p ++ y :: ys := by
  induction xs with
  | nil => simp [List.dropWhile_cons, hy]
  | cons c rest ih =>
    rw [List.cons_append, List.dropWhile_cons, List.dropWhile_cons]
    by_cases hc : p c
    · rw [if_pos hc, if_pos hc, ih]
    · rw [if_neg hc, if_neg hc, List.cons_append]

theorem pyStrip_dropWhile (s : List Char) :
    pyStrip (s.dropWhile isPySpace) = pyStrip s := by
  unfold pyStrip
  rw [List.dropWhile_idempotent]

theorem rstrip_append_false {p : Char → Bool} {c : Char} (xs : List Char)
    (hc : p c = false) : rstripWith p (xs ++ [c]) = xs ++ [c] := by
  unfold rstripWith
  rw [List.reverse_append, List.reverse_singleton, List.singleton_append,
    List.dropWhile_cons, hc]
  simp

theorem rstrip_append_true {p : Char → Bool} {c : Char} (xs : List Char)
    (hc : p c = true) : rstripWith p (xs ++ [c]) = rstripWith p xs := by
  unfold rstripWith
  rw [List.reverse_append, List.reverse_singleton, List.singleton_append,
    List.dropWhile_cons, hc]
  simp

theorem pyStrip_append_space {c : Char} (s : List Char) (hc : isPySpace c = true) :
    pyStrip (s ++ [c]) = pyStrip s := by
  unfold pyStrip
  rw [List.dropWhile_append]
  by_cases hemp : (s.dropWhile isPySpace).isEmpty
  · rw [if_pos hemp]
    rw [List.isEmpty_iff] at hemp
    rw [hemp]
    simp [List.dropWhile_cons, hc, rstripWith]
  · rw [if_neg hemp]
    rw [rstrip_append_true _ hc]

theorem pyStrip_cons_space {c : Char} (s : List Char) (hc : isPySpace c = true) :
    pyStrip (c :: s) = pyStrip s := by
  unfold pyStrip
  rw [List.dropWhile_cons, if_pos hc]

theorem splitFirstChar_append {sep : Char} (xs ys : List Char) (hx : sep ∉ xs) :
    splitFirstChar sep (xs ++ sep :: ys) = (xs, some ys) := by
  induction xs with
  | nil => simp [splitFirstChar]
  | cons c rest ih =>
    have hc : ¬(c = sep) := fun h => hx (h ▸ List.mem_cons_self c rest)
    rw [List.cons_append]
    simp only [splitFirstChar, if_neg hc]
    rw [ih (fun h => hx (List.mem_cons_of_mem c h))]

theorem splitAllChar_ne_nil (sep : Char) (s : List Char) : splitAllChar sep s ≠ [] := by
  cases s with
  | nil => simp [splitAllChar]
  | cons c rest =>
    simp only [splitAllChar]
    by_cases hc : c = sep
    · rw [if_pos hc]; simp
    · rw [if_neg hc]
      cases splitAllChar sep rest <;> simp

theorem splitAllChar_no_sep {sep : Char} (s : List Char) (h : sep ∉ s) :
    splitAllChar sep s = [s] := by
  induction s with
  | nil => rfl
  | cons c rest ih =>
    have hc : ¬(c = sep) := fun he => h (he ▸ List.mem_cons_self c rest)
    simp only [splitAllChar, if_neg hc]
    rw [ih (fun hm => h (List.mem_cons_of_mem c hm))]

theorem splitAllChar_append_sep_cons {sep : Char} (xs ys : List Char)
    (hx : sep ∉ xs) : splitAllChar sep (xs ++ sep :: ys) = xs :: splitAllChar sep ys := by
  induction xs with
  | nil => simp [splitAllChar]
  | cons c rest ih =>
    have hc : ¬(c = sep) := fun he => hx (he ▸ List.mem_cons_self c rest)
    rw [List.cons_append]
    simp only [splitAllChar, if_neg hc]
    rw [ih (fun hm => hx (List.mem_cons_of_mem c hm))]

theorem splitAllChar_append_sep_last (sep : Char) (xs : List Char) :
    splitAllChar sep (xs ++ [sep]) = splitAllChar sep xs ++ [[]] := by
  induction xs with
  | nil => simp [splitAllChar]
  | cons c rest ih =>
    rw [List.cons_append]
    by_cases hc : c = sep
    · simp only [splitAllChar, if_pos hc, ih]
      rfl
    · simp only [splitAllChar, if_neg hc, ih]
      cases hsp : splitAllChar sep rest with
      | nil => exact absurd hsp (splitAllChar_ne_nil sep rest)
      | cons h t => rfl

/-- Append one character to the last field of a split. -/
def appendLast (c : Char) : List (List Char) → List (List Char)
  | [] => [[c]]
  | [l] => [l ++ [c]]
  | l :: t => l :: appendLast c t

theorem splitAllChar_append_char_last {sep c : Char} (xs : List Char) (hc : c ≠ sep) :
    splitAllChar sep (xs ++ [c]) = appendLast c (splitAllChar sep xs) := by
  induction xs with
  | nil => simp [splitAllChar, if_neg hc, appendLast]
  | cons d rest ih =>
    rw [List.cons_append]
    by_cases hd : d = sep
    · simp only [splitAllChar, if_pos hd, ih]
      cases hsp : splitAllChar sep rest with
      | nil => exact absurd hsp (splitAllChar_ne_nil sep rest)
      | cons h t => rfl
    · simp only [splitAllChar, if_neg hd, ih]
      cases hsp : splitAllChar sep rest with
      | nil => exact absurd hsp (splitAllChar_ne_nil sep rest)
      | cons h t =>
        cases t with
        | nil => rfl
        | cons h2 t2 => rfl

theorem procLines_cons_empty (ls : List (List Char)) :
    procLines ([] :: ls) = procLines ls := by
  simp [procLines, pyStrip, rstripWith]

theorem procLines_append_empty (ls : List (List Char)) :
    procLines (ls ++ [[]]) = procLines ls := by
  simp [procLines, pyStrip, rstripWith]

theorem procLines_cons_space {c : Char} (l : List Char) (ls : List (List Char))
    (hc : isPySpace c = true) :
    procLines ((c :: l) :: ls) = procLines (l :: ls) := by
  simp only [procLines, List.map_cons, pyStrip_cons_space l hc]

theorem procLines_appendLast_space {c : Char} (ls : List (List Char))
    (hc : isPySpace c = true) : procLines (appendLast c ls) = procLines ls := by
  induction ls with
  | nil =>
    simp only [appendLast]
    have : pyStrip [c] = [] := by
      have := pyStrip_append_space (c := c) [] hc
      simpa [pyStrip, rstripWith] using this
    simp [procLines, this]
  | cons l t ih =>
    cases t with
    | nil =>
      simp only [appendLast, procLines, List.map_cons, List.map_nil,
        pyStrip_append_space l hc]
    | cons l2 t2 =>
      simp only [appendLast]
      simp only [procLines, List.map_cons, List.filter] at ih ⊢
      rw [ih]

theorem splitAllChar_cons_sep (sep : Char) (rest : List Char) :
    splitAllChar sep (sep :: rest) = [] :: splitAllChar sep rest := by
  simp [splitAllChar]

theorem splitAllChar_cons_nonsep {sep c : Char} {h : List Char}
    {t : List (List Char)} (rest : List Char) (hc : c ≠ sep)
    (hsp : splitAllChar sep rest = h :: t) :
    splitAllChar sep (c :: rest) = (c :: h) :: t := by
  simp only [splitAllChar, if_neg hc, hsp]

theorem procSplit_lstrip (C : List Char) :
    procLines (splitLines (C.dropWhile isPySpace)) = procLines (splitLines C) := by
  induction C with
  | nil => rfl
  | cons c rest ih =>
    by_cases hc : isPySpace c
    · rw [List.dropWhile_cons, if_pos hc]
      rw [ih]
      by_cases hnl : c = '\n'
      · subst hnl
        show procLines (splitLines rest) = procLines (splitAllChar '\n' ('\n' :: rest))
        rw [splitAllChar_cons_sep, procLines_cons_empty]
        rfl
      · show procLines (splitLines rest) = procLines (splitAllChar '\n' (c :: rest))
        cases hsp : splitAllChar '\n' rest with
        | nil => exact absurd hsp (splitAllChar_ne_nil '\n' rest)
        | cons h t =>
          rw [splitAllChar_cons_nonsep rest hnl hsp]
          rw [procLines_cons_space h t hc]
          rw [show splitLines rest = splitAllChar '\n' rest from rfl, hsp]
    · rw [List.dropWhile_cons, if_neg hc]

theorem procSplit_rstrip (C : List Char) :
    procLines (splitLines (rstripWith isPySpace C)) = procLines (splitLines C) := by
  induction C using List.reverseRecOn with
  | nil => rfl
  | append_singleton xs c ih =>
    by_cases hc : isPySpace c
    · rw [rstrip_append_true xs hc, ih]
      by_cases hnl : c = '\n'
      · subst hnl
        show procLines (splitLines xs) = procLines (splitAllChar '\n' (xs ++ ['\n']))
        rw [splitAllChar_append_sep_last]
        rw [procLines_append_empty]
        rfl
      · show procLines (splitLines xs) = procLines (splitAllChar '\n' (xs ++ [c]))
        rw [splitAllChar_append_char_last xs hnl]
        rw [procLines_appendLast_space _ hc]
        rfl
    · rw [rstrip_append_false xs (Bool.not_eq_true _ ▸ hc)]

theorem procSplit_pyStrip (C : List Char) :
    procLines (splitLines (pyStrip C)) = procLines (splitLines C) := by
  unfold pyStrip
  rw [procSplit_rstrip, procSplit_lstrip]

theorem splitLines_joinLines (cs : List (List Char)) (hne : cs ≠ [])
    (hcs : ∀ l ∈ cs, ('\n' : Char) ∉ l) :
    splitLines (joinLines cs) = cs := by
  induction cs with
  | nil => exact absurd rfl hne
  | cons l rest ih =>
    cases rest with
    | nil =>
      show splitAllChar '\n' l = [l]
      exact splitAllChar_no_sep l (hcs l (List.mem_cons_self l []))
    | cons l2 rest2 =>
      show splitAllChar '\n' (l ++ '\n' :: joinLines (l2 :: rest2)) = l :: l2 :: rest2
      rw [splitAllChar_append_sep_cons _ _ (hcs l (List.mem_cons_self l _))]
      have := ih (by simp) (fun m hm => hcs m (List.mem_cons_of_mem l hm))
      rw [show splitLines (joinLines (l2 :: rest2)) = splitAllChar '\n'
        (joinLines (l2 :: rest2)) from rfl] at this
      rw [this]

theorem fenceGroup_commands (cs : List (List Char))
    (hcs : ∀ l ∈ cs, ('\n' : Char) ∉ l) :
    procLines (splitLines (pyStrip (joinLines cs))) = procLines cs := by
  rw [procSplit_pyStrip]
  cases cs with
  | nil => simp [joinLines, splitLines, splitAllChar, procLines, pyStrip, rstripWith]
  | cons l rest =>
    rw [splitLines_joinLines (l :: rest) (by simp) hcs]

theorem scanFencesGo_irrel : ∀ (f1 f2 : Nat) (s : List Char),
    s.length < f1 → s.length < f2 → scanFencesGo f1 s = scanFencesGo f2 s := by
  intro f1
  induction f1 with
  | zero => intro f2 s h1 h2; exact absurd h1 (Nat.not_lt_zero _)
  | succ n ih =>
    intro f2 s h1 h2
    cases f2 with
    | zero => exact absurd h2 (Nat.not_lt_zero _)
    | succ m =>
      cases s with
      | nil => rfl
      | cons c rest =>
        simp only [List.length_cons] at h1 h2
        cases hf : tryFence (c :: rest) with
        | some p =>
          rcases p with ⟨g, r⟩
          have hr := tryFence_rest_length hf
          simp only [List.length_cons] at hr
          simp only [scanFencesGo, hf]
          rw [ih m r (by omega) (by omega)]
        | none =>
          simp only [scanFencesGo, hf]
          exact ih m rest (by omega) (by omega)

theorem scanFences_cons_skip {c : Char} {rest : List Char}
    (h : tryFence (c :: rest) = none) : scanFences (c :: rest) = scanFences rest := by
  unfold scanFences
  rw [show (c :: rest).length + 1 = rest.length + 1 + 1 from by simp]
  simp only [scanFencesGo, h]

theorem scanFences_cons_match {c : Char} {rest g r : List Char}
    (h : tryFence (c :: rest) = some (g, r)) :
    scanFences (c :: rest) = g :: scanFences r := by
  unfold scanFences
  rw [show (c :: rest).length + 1 = rest.length + 1 + 1 from by simp]
  simp only [scanFencesGo, h]
  have hr := tryFence_rest_length h
  simp only [List.length_cons] at hr
  rw [scanFencesGo_irrel (rest.length + 1) (r.length + 1) r (by omega) (by omega)]

theorem tryFence_cons_nonbtick {c : Char} (s : List Char) (hc : c ≠ btick) :
    tryFence (c :: s) = none := by
  unfold tryFence
  rw [fenceMark_eq, startsWithLit_cons_false _ _ (fun he => hc he.symm)]
  rfl

theorem scanFences_skip_clean (xs ys : List Char) (hx : ∀ c ∈ xs, c ≠ btick) :
    scanFences (xs ++ ys) = scanFences ys := by
  induction xs with
  | nil => rfl
  | cons c rest ih =>
    rw [List.cons_append]
    rw [scanFences_cons_skip (tryFence_cons_nonbtick _ (hx c (List.mem_cons_self c rest)))]
    exact ih (fun d hd => hx d (List.mem_cons_of_mem c hd))

theorem tryFence_canonical (tag body : List Char)
    (htag : ∀ c ∈ tag, isWordChar c = true)
    (hbody : ∀ c ∈ body, c ≠ btick) :
    tryFence (fenceMark ++ (tag ++ '\n' :: (body ++ '\n' :: fenceMark)))
      = some ((body ++ ['\n']).dropWhile isPySpace, []) := by
  unfold tryFence
  rw [if_pos (startsWithLit_append_self _ _)]
  rw [List.drop_left]
  dsimp only
  rw [takeWhile_append_stop isWordChar tag _ htag (by decide)]
  rw [List.drop_left]
  rw [drop_length_takeWhile]
  rw [List.dropWhile_cons, if_pos (by decide)]
  rw [show body ++ '\n' :: fenceMark = (body ++ ['\n']) ++ fenceMark from by simp]
  rw [fenceMark_eq, dropWhile_append_stop isPySpace _ _ (by decide), ← fenceMark_eq]
  have hD : ∀ c ∈ (body ++ ['\n']).dropWhile isPySpace, c ≠ btick := by
    intro c hcmem
    have : c ∈ body ++ ['\n'] := (List.dropWhile_sublist _).subset hcmem
    rcases List.mem_append.mp this with hcb | hcn
    · exact hbody c hcb
    · rcases List.mem_singleton.mp hcn with rfl
      decide
  have := splitFirstSub_fence ((body ++ ['\n']).dropWhile isPySpace) [] hD
  rw [List.append_nil] at this
  exact this

theorem subHeadingOnce_cons_match {c : Char} {rest tail : List Char}
    (h : tryHeadingMatch (c :: rest) = some tail) :
    subHeadingOnce (c :: rest) = tail := by
  simp [subHeadingOnce, h]

theorem tryHeadingMatch_canonical (hc : Char) (ht rest : List Char)
    (hhc : isPySpace hc = false) (hnl : ('\n' : Char) ∉ hc :: ht) :
    tryHeadingMatch (headingMark ++ (' ' :: ((hc :: ht) ++ '\n' :: rest)))
      = some rest := by
  unfold tryHeadingMatch
  rw [if_pos (startsWithLit_append_self _ _)]
  rw [List.drop_left]
  dsimp only
  rw [List.takeWhile_cons, if_pos (by decide)]
  rw [List.cons_append, List.takeWhile_cons, hhc]
  simp only [Bool.false_eq_true, if_false, List.length_cons, List.length_nil]
  rw [List.drop_succ_cons, List.drop_zero]
  rw [show hc :: (ht ++ '\n' :: rest) = (hc :: ht) ++ '\n' :: rest from rfl]
  rw [splitFirstChar_append _ _ hnl]

theorem mem_joinLines {c : Char} : ∀ (cs : List (List Char)),
    c ∈ joinLines cs → c = '\n' ∨ ∃ l ∈ cs, c ∈ l := by
  intro cs
  induction cs with
  | nil => intro h; cases h
  | cons l rest ih =>
    cases rest with
    | nil =>
      intro h
      exact Or.inr ⟨l, List.mem_cons_self l [], h⟩
    | cons l2 rest2 =>
      intro h
      rcases List.mem_append.mp h with hl | hr
      · exact Or.inr ⟨l, List.mem_cons_self l _, hl⟩
      · rcases List.mem_cons.mp hr with rfl | hj
        · exact Or.inl rfl
        · rcases ih hj with hnl | ⟨m, hm, hcm⟩
          · exact Or.inl hnl
          · exact Or.inr ⟨m, List.mem_cons_of_mem l hm, hcm⟩

/-- The fenced command block of the canonical task body: opening fence,
optional language tag, newline, command lines, newline, closing fence. -/
def fencePart (tag : List Char) (cs : List (List Char)) : List Char :=
  fenceMark ++ (tag ++ '\n' :: (joinLines cs ++ '\n' :: fenceMark))

/-- A task body consisting of exactly a `###` heading line, narrative
text, and one fenced command block — the family of inputs the
description-boundary property quantifies over. -/
def mkTaskBody (h n tag : List Char) (cs : List (List Char)) : List Char :=
  headingMark ++ (' ' :: (h ++ '\n' :: (n ++ '\n' :: fencePart tag cs)))

theorem pyStrip_mkTaskBody (h n tag : List Char) (cs : List (List Char)) :
    pyStrip (mkTaskBody h n tag cs) = mkTaskBody h n tag cs := by
  unfold pyStrip
  have hl : (mkTaskBody h n tag cs).dropWhile isPySpace = mkTaskBody h n tag cs := by
    rw [show mkTaskBody h n tag cs
      = '#' :: ('#' :: '#' :: (' ' :: (h ++ '\n' :: (n ++ '\n' :: fencePart tag cs))))
      from rfl]
    rw [List.dropWhile_cons, if_neg (by decide)]
  rw [hl]
  obtain ⟨T, hT⟩ : ∃ T, (mkTaskBody h n tag cs).reverse = btick :: T := by
    rw [show mkTaskBody h n tag cs
      = (headingMark ++ (' ' :: (h ++ '\n' :: (n ++ '\n' :: (fenceMark
          ++ (tag ++ '\n' :: (joinLines cs ++ ['\n'])))))) ++ [btick, btick, btick])
      from by simp [mkTaskBody, fencePart, fenceMark_eq]]
    rw [List.reverse_append]
    exact ⟨_, rfl⟩
  unfold rstripWith
  rw [hT, List.dropWhile_cons, if_neg (by decide), ← hT, List.reverse_reverse]

/-- C8: for every task body made of a heading line, narrative text, and
one fenced command block (heading text non-empty, starting with a
non-space character, free of newlines and backticks; narrative free of
backticks; language tag made of word characters; command lines free of
newlines and backticks), the parsed description is exactly the stripped
narrative — excluding the heading line and everything from the first
fence onward — and the parsed commands are exactly the stripped non-blank
command lines of the fence, in order; the fence boundary lines contribute
nothing. The body is pre-stripped by the parser (`group(3).strip()`);
`pyStrip_mkTaskBody` shows that step is the identity here, and the
conclusions are stated through it exactly as `parse_task_file`
composes them. -/
theorem c8_description_commands_boundary (h n tag : List Char) (cs : List (List Char))
    (hh0 : h ≠ []) (hh1 : isPySpace (h.headD ' ') = false)
    (hh2 : ('\n' : Char) ∉ h) (hh3 : btick ∉ h)
    (hn1 : btick ∉ n)
    (htag : ∀ c ∈ tag, isWordChar c = true)
    (hcs : ∀ l ∈ cs, ('\n' : Char) ∉ l ∧ btick ∉ l) :
    taskDescriptionL (pyStrip (mkTaskBody h n tag cs)) = pyStrip n
    ∧ taskCommandsL (pyStrip (mkTaskBody h n tag cs)) = procLines cs := by
  obtain ⟨hc, ht, rfl⟩ : ∃ hc ht, h = hc :: ht := by
    cases h with
    | nil => exact absurd rfl hh0
    | cons a b => exact ⟨a, b, rfl⟩
  rw [pyStrip_mkTaskBody]
  have hhc : isPySpace hc = false := hh1
  have hsub : subHeadingOnce (mkTaskBody (hc :: ht) n tag cs)
      = n ++ '\n' :: fencePart tag cs := by
    rw [show mkTaskBody (hc :: ht) n tag cs
      = '#' :: ('#' :: '#' :: (' ' :: ((hc :: ht) ++ '\n' :: (n ++ '\n' :: fencePart tag cs))))
      from rfl]
    rw [subHeadingOnce_cons_match]
    exact tryHeadingMatch_canonical hc ht (n ++ '\n' :: fencePart tag cs) hhc hh2
  constructor
  · unfold taskDescriptionL
    dsimp only
    rw [hsub]
    rw [show n ++ '\n' :: fencePart tag cs
      = (n ++ ['\n']) ++ fenceMark ++ (tag ++ '\n' :: (joinLines cs ++ '\n' :: fenceMark))
      from by simp [fencePart]]
    rw [splitFirstSub_fence (n ++ ['\n']) _ ?hclean]
    case hclean =>
      intro c hcm he
      subst he
      rcases List.mem_append.mp hcm with hcn | hcnl
      · exact hn1 hcn
      · exact absurd (List.mem_singleton.mp hcnl) (by decide)
    show pyStrip (n ++ ['\n']) = pyStrip n
    exact pyStrip_append_space n (by decide)
  · unfold taskCommandsL
    rw [show mkTaskBody (hc :: ht) n tag cs
      = (headingMark ++ (' ' :: ((hc :: ht) ++ '\n' :: (n ++ ['\n'])))) ++ fencePart tag cs
      from by simp [mkTaskBody]]
    rw [scanFences_skip_clean _ _ ?hpre]
    case hpre =>
      intro c hcm he
      subst he
      rcases List.mem_append.mp hcm with hch | hcr
      · exact absurd hch (by decide)
      · rcases List.mem_cons.mp hcr with h1 | hcr2
        · exact absurd h1 (by decide)
        · rcases List.mem_append.mp hcr2 with hcht | hcr3
          · exact hh3 hcht
          · rcases List.mem_cons.mp hcr3 with h1 | hcr4
            · exact absurd h1 (by decide)
            · rcases List.mem_append.mp hcr4 with hcn | hcnl
              · exact hn1 hcn
              · exact absurd (List.mem_singleton.mp hcnl) (by decide)
    have hbody : ∀ c ∈ joinLines cs, c ≠ btick := by
      intro c hcm
      rcases mem_joinLines cs hcm with rfl | ⟨l, hl, hcl⟩
      · decide
      · exact fun he => (hcs l hl).2 (he ▸ hcl)
    have hfence := tryFence_canonical tag (joinLines cs) htag hbody
    rw [show fencePart tag cs
      = btick :: (btick :: btick :: (tag ++ '\n' :: (joinLines cs ++ '\n' :: fenceMark)))
      from by simp [fencePart, fenceMark_eq]]
    rw [scanFences_cons_match ?hmatch]
    case hmatch =>
      rw [show btick :: (btick :: btick :: (tag ++ '\n' :: (joinLines cs ++ '\n' :: fenceMark)))
        = fenceMark ++ (tag ++ '\n' :: (joinLines cs ++ '\n' :: fenceMark))
        from by simp [fenceMark_eq]]
      exact hfence
    rw [show scanFences [] = [] from rfl]
    rw [List.flatMap_cons, List.flatMap_nil, List.append_nil]
    unfold fenceCommands
    rw [show splitLines (pyStrip ((joinLines cs ++ ['\n']).dropWhile isPySpace))
      = splitLines (pyStrip (joinLines cs)) from by
        rw [pyStrip_dropWhile, pyStrip_append_space _ (by decide)]]
    exact fenceGroup_commands cs (fun l hl => (hcs l hl).1)

/-- C8 witness: a concrete heading, two-line narrative with surrounding
blank space, and a fence with a comment line, a blank line, and two
commands. -/
theorem c8_boundary_witness :
    taskDescriptionL (pyStrip (mkTaskBody "My Task".data "  line one\nline two ".data
        "bash".data ["# comment".data, "  ".data, " echo a ".data, "echo b".data]))
      = "line one\nline two".data
    ∧ taskCommandsL (pyStrip (mkTaskBody "My Task".data "  line one\nline two ".data
        "bash".data ["# comment".data, "  ".data, " echo a ".data, "echo b".data]))
      = ["# comment".data, "echo a".data, "echo b".data] := by
  have := c8_description_commands_boundary "My Task".data "  line one\nline two ".data
    "bash".data ["# comment".data, "  ".data, " echo a ".data, "echo b".data]
    (by decide) (by decide) (by decide) (by decide) (by decide) (by decide) (by decide)
  refine ⟨this.1.trans (by decide), this.2.trans (by decide)⟩
